import Mathlib

/-!
Verification development for the `murasyp` library (imprecise probability:
sets of desirable gambles, credal sets, and their duality).

The Python classes are shallowly embedded:
* `murasyp.vectors.Vector` (rational-valued function, zero off its finite
  domain) becomes the structure `Vec`;
* constructors that `raise` become `Except PyErr`-valued functions;
* the external LP / polyhedron adapters (pycddlib) are out of scope per the
  specification and are modelled as abstract parameters together with the
  mathematical contract the code relies on.
-/

namespace Murasyp


/-- State labels (the opaque hashable "arguments" of the possibility space). -/
abbrev St := String

/-- The kinds of Python exceptions the embedded code can raise. -/
inductive PyErr
  | valueError
  | typeError
  | nameError
  | attributeError
  deriving DecidableEq, Repr

/-- `murasyp.vectors.Vector`: a rational-valued function with an explicit
finite domain; `__getitem__` returns the stored value on the domain and `0`
off it.  `val` is the total zero-extended lookup, `dom` the set of keys; the
invariant `zero_off` pins `val` down off the domain so that equality of a
`Vec` is exactly equality of domain and values, as in the source (hash and
equality are content-based). -/
structure Vec where
  dom : Finset St
  val : St → ℚ
  zero_off : ∀ x, x ∉ dom → val x = 0

instance : DecidableEq Vec := fun f g =>
  decidable_of_iff (f.dom = g.dom ∧ ∀ x ∈ f.dom, f.val x = g.val x) (by
    constructor
    · rintro ⟨h1, h2⟩
      obtain ⟨df, vf, hf⟩ := f
      obtain ⟨dg, vg, hg⟩ := g
      simp only at h1 h2
      subst h1
      have hv : vf = vg := by
        funext x
        by_cases hx : x ∈ df
        · exact h2 x hx
        · rw [hf x hx, hg x hx]
      simp [hv]
    · rintro rfl
      exact ⟨rfl, fun _ _ => rfl⟩)

/-- Build a `Vec` over the keys `s` from arbitrary per-key data (keys outside
`s` are zeroed, as `Vector.__getitem__` does). -/
def Vec.ofFun (s : Finset St) (v : St → ℚ) : Vec :=
  ⟨s, fun x => if x ∈ s then v x else 0, by intro x hx; simp [hx]⟩

/-- `Function.support`: the part of the domain where the value is nonzero. -/
def Vec.supp (f : Vec) : Finset St := f.dom.filter (fun x => f.val x ≠ 0)

/-- `Vector.__or__`: restriction/extension of the domain to `s`, filling with
the zero-extended values (`{x: self[x] for x in other}`). -/
def Vec.restrict (f : Vec) (s : Finset St) : Vec := Vec.ofFun s f.val

/-- Restriction of a vector to its own support (`f | f.support()`), used by
the `Ray` and `UMFunc` constructors. -/
def Vec.restrictSupp (f : Vec) : Vec := f.restrict f.supp

/-- `Vector.mass`: the sum of the values. -/
def Vec.mass (f : Vec) : ℚ := ∑ x ∈ f.dom, f.val x

/-- `Vector.is_nonnegative`. -/
def Vec.is_nonnegative (f : Vec) : Prop := ∀ x ∈ f.dom, 0 ≤ f.val x

instance (f : Vec) : Decidable f.is_nonnegative := by
  unfold Vec.is_nonnegative; infer_instance

/-- Pointwise addition of vectors (`Vector` `_with_function` with the
union `_domain_joiner`; missing entries read as `0`). -/
def Vec.add (f g : Vec) : Vec :=
  Vec.ofFun (f.dom ∪ g.dom) (fun x => f.val x + g.val x)

/-- Scalar multiplication (`Function._with_scalar` with `*`). -/
def Vec.smul (c : ℚ) (f : Vec) : Vec :=
  ⟨f.dom, fun x => f.val x * c, by
    intro x hx; show f.val x * c = 0; rw [f.zero_off x hx, zero_mul]⟩

/-- Scalar division (`Function.__truediv__`). In the source, division by zero
raises; we only ever use this with a nonzero divisor (guarded upstream), and
ℚ-division by zero yields the zero vector, which no guarded path observes. -/
def Vec.sdiv (f : Vec) (c : ℚ) : Vec :=
  ⟨f.dom, fun x => f.val x / c, by
    intro x hx; show f.val x / c = 0; rw [f.zero_off x hx, zero_div]⟩

/-- Negation (`__neg__ = self * (-1)`). -/
def Vec.neg (f : Vec) : Vec := Vec.smul (-1) f

/-- Pointwise subtraction (`__sub__ = self + (-other)`). -/
def Vec.sub (f g : Vec) : Vec := f.add g.neg

/-- `Gamble.__add__` with a scalar argument: the scalar is added to the value
at every key of the gamble's own domain. -/
def Vec.scalarAdd (f : Vec) (c : ℚ) : Vec := Vec.ofFun f.dom (fun x => f.val x + c)

/-- `Gamble(set)`: the indicator gamble of an event. -/
def indicator (s : Finset St) : Vec := Vec.ofFun s (fun _ => 1)

/-- `Gamble.__mul__` with a gamble argument: pointwise multiplication over the
union of the domains. -/
def Vec.gmul (f g : Vec) : Vec :=
  Vec.ofFun (f.dom ∪ g.dom) (fun x => f.val x * g.val x)

/-- `Gamble.bounds`: `(min, max)` of the range, `(0, 0)` for the empty
gamble. -/
def Vec.bounds (f : Vec) : ℚ × ℚ :=
  if h : f.dom.Nonempty then
    ((f.dom.image f.val).min' (h.image f.val), (f.dom.image f.val).max' (h.image f.val))
  else (0, 0)

/-- `Gamble.norm`: the max-norm `max(-min, max)`. -/
def Vec.norm (f : Vec) : ℚ := max (-(f.bounds.1)) f.bounds.2

/-- The value of `Gamble.normalized` on the non-degenerate path: `self / norm`
(junk — the zero vector — when the norm is zero, a case every caller guards,
mirroring the `None` sentinel). -/
def Vec.normalizedD (f : Vec) : Vec := f.sdiv f.norm

/-- The gamble built by the `Ray` constructor on its success path:
max-norm-normalize, then restrict to the support. -/
def rayVal (f : Vec) : Vec := f.normalizedD.restrictSupp

/-- `Ray.__init__` (`murasyp.gambles.Ray` / `murasyp.rays.Ray`): normalize the
gamble by its max-norm and restrict to the support; an identically zero input
(`normalized()` returning the `None` sentinel) raises `ValueError`. -/
def rayMk (f : Vec) : Except PyErr Vec :=
  if f.norm = 0 then .error .valueError else .ok (rayVal f)

/-- The vector built by the `UMFunc` constructor on its success path:
sum-normalize, then restrict to the support. -/
def umfVal (f : Vec) : Vec := (f.sdiv f.mass).restrictSupp

/-- `UMFunc.__init__`: sum-normalize and restrict to the support; a total mass
of zero (`sum_normalized()` returning `None`) raises `ValueError`. -/
def umfMk (f : Vec) : Except PyErr Vec :=
  if f.mass = 0 then .error .valueError else .ok (umfVal f)

/-- `PMFunc.__init__`: build the `UMFunc`, then raise `ValueError` unless the
result `is_nonnegative`. -/
def pmfMk (f : Vec) : Except PyErr Vec :=
  match umfMk f with
  | .error e => .error e
  | .ok g => if g.is_nonnegative then .ok g else .error .valueError

/-- The zero gamble (`Origin()`). -/
def zeroVec : Vec := Vec.ofFun ∅ (fun _ => 0)

/-- `PMFunc.__or__` (inherited `UMFunc.__or__` with `type(self) = PMFunc`):
condition a probability mass function on an event by restricting and
re-normalizing; raises `ValueError` when the restricted mass is zero (or the
renormalized values are not all nonnegative). -/
def pmfCond (p : Vec) (s : Finset St) : Except PyErr Vec := pmfMk (p.restrict s)

/-- The conditional mass `sum(p[x] for x in dom p ∩ dom f)` a member assigns
to the implicit conditioning event of `UMFunc.__mul__`. -/
def condMass (p f : Vec) : ℚ := ∑ x ∈ p.dom ∩ f.dom, p.val x

/-- The value computed by `UMFunc.__mul__` on its success path: the
expectation of `f` under `p` conditioned on `dom p ∩ dom f`. -/
def expectVal (p f : Vec) : ℚ :=
  ∑ x ∈ p.dom ∩ f.dom, (p.val x / condMass p f) * f.val x

/-- `UMFunc.__mul__` with a gamble argument, as invoked on a `PMFunc` member:
`pspace = self.domain() & other.domain()`, then
`sum((self | pspace)[x] * other[x] for x in pspace)`; the conditioning step
raises when the conditional mass is zero. -/
def umfExpect (p f : Vec) : Except PyErr ℚ :=
  match pmfCond p (p.dom ∩ f.dom) with
  | .error e => .error e
  | .ok q => .ok (∑ x ∈ p.dom ∩ f.dom, q.val x * f.val x)

instance {ε α : Type} [DecidableEq ε] [DecidableEq α] : DecidableEq (Except ε α)
  | .error e, .error e' => decidable_of_iff (e = e') (by simp)
  | .error _, .ok _ => isFalse (fun h => Except.noConfusion h)
  | .ok _, .error _ => isFalse (fun h => Except.noConfusion h)
  | .ok a, .ok a' => decidable_of_iff (a = a') (by simp)

/-- `CredalSet.__mul__` (lower expectation): on an empty credal set the code
executes `raise Error(...)` where `Error` is an undefined name — neither
defined in `murasyp.credalsets` nor imported — so Python raises `NameError`;
otherwise `min(p * other for p in self)`, where a member whose conditional
mass is zero raises `ValueError` from re-normalization. -/
def credalMul (K : Finset Vec) (f : Vec) : Except PyErr ℚ :=
  if hK : K.Nonempty then
    if ∀ p ∈ K, (umfExpect p f).isOk = true then
      .ok ((K.image (fun p => expectVal p f)).min' (hK.image _))
    else .error .valueError
  else .error .nameError

/-- `CredalSet.__pow__` (upper expectation): as `__mul__` but with `max`. -/
def credalPow (K : Finset Vec) (f : Vec) : Except PyErr ℚ :=
  if hK : K.Nonempty then
    if ∀ p ∈ K, (umfExpect p f).isOk = true then
      .ok ((K.image (fun p => expectVal p f)).max' (hK.image _))
    else .error .valueError
  else .error .nameError

/-- `CredalSet.__or__` with an event argument: conditions every member.  The
`if any(p == None for p in K)` fallback to the vacuous credal set is dead
code, because `UMFunc.__or__` raises `ValueError` on zero conditional mass
instead of returning `None`; so a failing member propagates the error. -/
def credalCond (K : Finset Vec) (E : Finset St) : Except PyErr (Finset Vec) :=
  if ∀ p ∈ K, (pmfCond p E).isOk = true then
    .ok (K.image (fun p => umfVal (p.restrict E)))
  else .error .valueError

/-- The vacuous credal set on an event: one Dirac probability mass function
per state (`{PMFunc({x}) for x in event}`), the result the dead fallback
branch of `CredalSet.__or__` would produce. -/
def vacuousCredal (E : Finset St) : Finset Vec := E.image (fun x => indicator {x})

/-- The plain zero-extended expectation `Σ_x p[x]·f[x]` of claim C4. -/
def dotExpect (p f : Vec) : ℚ := ∑ x ∈ p.dom ∪ f.dom, p.val x * f.val x

def pmfP : Vec :=
  Vec.ofFun {"a", "b", "c"} (fun x => if x = "a" then 3/100 else if x = "b" then 7/100 else 9/10)

def pmfQ : Vec :=
  Vec.ofFun {"a", "b", "c"} (fun x => if x = "a" then 7/100 else if x = "b" then 3/100 else 9/10)

def gambleF : Vec :=
  Vec.ofFun {"a", "b", "c"} (fun x => if x = "a" then -1 else if x = "b" then 1 else 0)

/-- The gamble `f | f.support()`, i.e. `Gamble({'a': -1, 'b': 1})`. -/
def gambleFr : Vec := Vec.ofFun {"a", "b"} (fun x => if x = "a" then -1 else 1)

/-- The all-nonpositive mapping `{'a': -1}` of claim C10. -/
def negVec : Vec := Vec.ofFun {"a"} (fun _ => -1)

/-- `Ray.__add__` as actually executed: `Ray` does not override `__add__`, so
`Function._pointwise` runs with `self._normless_type = Ray` (set by
`Function.__init__` when the ray was built), and the pointwise sum is passed
back through the `Ray` constructor — re-normalizing it. -/
def rayAdd (r s : Vec) : Except PyErr Vec := rayMk (r.add s)

/-- `Ray.__mul__`: both operands are explicitly demoted with `Gamble(...)`
before multiplying, so the result is the plain `Gamble` product. -/
def rayMul (r s : Vec) : Vec := r.gmul s

/-- `Ray.__div__`: the ray is demoted with `Gamble(self)` before the scalar
division, so the result is the plain `Gamble` quotient. -/
def rayDiv (r : Vec) (c : ℚ) : Vec := r.sdiv c

/-- The ray `Ray({'b', 'c'})` from the warning doctest in
`murasyp.gambles.Ray`. -/
def rBC : Vec := indicator {"b", "c"}

/-- A cone, represented by its finite set of generator rays.  Modelled from
the spec: the `Cone` class is imported by `murasyp.desirs` from
`murasyp.gambles` but missing from the source tree; per §4.2 of the
specification, `Cone(iterable)` converts every element to a `Ray` (so a
degenerate, identically-zero element raises `ValueError`) and proportional
duplicates collapse by content-based equality. -/
def coneMk (S : Finset Vec) : Except PyErr (Finset Vec) :=
  if ∀ f ∈ S, f.norm ≠ 0 then .ok (S.image rayVal) else .error .valueError

/-- `Cone.domain()` (modelled from the spec, §4.2): the union of the
generator domains.  (For an empty cone the source's `frozenset.union(*())`
would raise; no claim exercises that path.) -/
def coneDom (C : Finset Vec) : Finset St := C.sup Vec.dom

/-- `DesirSet.pspace`: `frozenset.union(*(cone.domain() for cone in self))`;
with no cones at all, the unbound `frozenset.union` is called with zero
arguments, which raises `TypeError`. -/
def pspaceD (D : Finset (Finset Vec)) : Except PyErr (Finset St) :=
  if D = ∅ then .error .typeError else .ok (D.sup coneDom)

/-- `DesirSet.set_lower_pr(data, val)`: build `gamble = Gamble(data)`, then
`self.add({gamble - val, Ray(gamble.domain())})`.  The scalar subtraction
shifts every value of the gamble's own domain by `-val` (which equals
`gamble - val·indicator(dom)` there); `Ray(gamble.domain())` normalizes the
indicator of the domain (raising on an empty domain); `add` wraps the
two-element set into a `Cone`, re-normalizing each element to a `Ray`, and
inserts it. -/
def setLowerPr (D : Finset (Finset Vec)) (g : Vec) (v : ℚ) :
    Except PyErr (Finset (Finset Vec)) :=
  match rayMk (indicator g.dom) with
  | .error e => .error e
  | .ok r =>
    match coneMk (insert (g.scalarAdd (-v)) {r}) with
    | .error e => .error e
    | .ok C => .ok (insert C D)

/-- `DesirSet.asl`: evaluates `self.pspace()` (raising `TypeError` when the
set is empty), then builds the sure-loss LP over the generator rays and
returns `lp.status != LPStatusType.OPTIMAL`.  The LP itself is solved by the
external `cdd.LinProg` adapter, out of scope per §6 of the specification and
modelled by the abstract parameter `solver` (which receives the data the
matrix is built from and returns the value of `status != OPTIMAL`). -/
def asl (solver : Finset (Finset Vec) → Finset St → Bool) (D : Finset (Finset Vec)) :
    Except PyErr Bool :=
  match pspaceD D with
  | .error e => .error e
  | .ok ps => .ok (solver D ps)

/-- The doctest gamble of Scenario 2: `Gamble({'a': 1, 'b': 1}) | {'a','b','c'}`. -/
def gambleAB : Vec := (indicator {"a", "b"}).restrict {"a", "b", "c"}

/-- The two generator rays of the Scenario-2 doctest:
`Ray({'a': 1, 'b': 1, 'c': 1})` and `Ray({'a': 1, 'b': 1, 'c': '-2/3'})`. -/
def rayABC : Vec := indicator {"a", "b", "c"}

def rayABm : Vec := Vec.ofFun {"a", "b", "c"} (fun x => if x = "c" then -2/3 else 1)

/-- A two-tier ray (`murasyp.gambles.DiRay`): a main ray `r` and a second-tier
direction `dir` (the zero gamble `Origin()` when absent).  Modelled from the
spec for the element access in `apl`: the `Cone` class that `DesirSet.__init__`
would wrap elements in is missing from the source tree, and
`DesirSet.apl` accesses the elements as dirays (`ray[x]`, `ray.dir`),
matching the docstring revision in which the elements are `DiRay`s. -/
structure DRay where
  r : Vec
  dir : Vec
  deriving DecidableEq

/-- The possibility space used by `apl`: the union of the element domains. -/
def pspaceR (D : Finset DRay) : Finset St := D.sup (fun g => g.r.dom)

/-- A primal solution of one `apl`-round LP: a multiplier per diray and a
`τ`-value per state. -/
structure AplSol where
  lam : DRay → ℚ
  tau : St → ℚ

/-- The feasible region of the LP built by one round of `DesirSet.apl`
(Algorithm 2 of [WPV2004]) for the active set `A`: with `I_ω` the indicator
ray of `ω`, the matrix rows say `λ_g ≥ 0` for every diray, `0 ≤ τ_ω ≤ 1` for
every `ω ∈ A`, `Σ_g λ_g·g(x) ≤ -Σ_{ω∈A} τ_ω·I_ω(x)` pointwise over the
possibility space, and `λ_g·g'(x) ≤ 0` for every state `x` outside `A` and
every second tier `g'`. -/
def AplFeasible (D : Finset DRay) (ps A : Finset St) (s : AplSol) : Prop :=
  (∀ g ∈ D, 0 ≤ s.lam g) ∧
  (∀ ω ∈ A, 0 ≤ s.tau ω ∧ s.tau ω ≤ 1) ∧
  (∀ x ∈ ps, (∑ g ∈ D, s.lam g * g.r.val x) + (if x ∈ A then s.tau x else 0) ≤ 0) ∧
  (∀ x ∈ ps \ A, ∀ g ∈ D, s.lam g * g.dir.val x ≤ 0)

/-- The objective of one `apl`-round LP: maximize `Σ_{ω∈A} τ_ω`. -/
def aplObj (A : Finset St) (s : AplSol) : ℚ := ∑ ω ∈ A, s.tau ω

/-- An optimal solution of one `apl`-round LP. -/
def AplOptimal (D : Finset DRay) (ps A : Finset St) (s : AplSol) : Prop :=
  AplFeasible D ps A s ∧ ∀ s', AplFeasible D ps A s' → aplObj A s' ≤ aplObj A s

/-- The `while len(A) > 0` loop of `DesirSet.apl`, with the LP solve
delegated to the abstract external adapter `solver` (out of scope per §6 of
the specification); `solver A = none` models `lp.status != OPTIMAL`, on which
the code raises `ValueError`.  Branches, in source order: if no `τ` is
nonzero, return `True`; if all are nonzero, return `False`; otherwise the new
active set keeps the states with `τ` exactly `1` — when that set is empty the
Python `sum(...)` over no gambles is the `int` `0` and `0.support()` raises
`AttributeError`.  Falling out of the loop (empty active set) returns
Python's `None`, modelled as `Except.ok none`.  The `fuel` argument bounds
the iteration count; `none` marks exhausted fuel and is proven unreachable
with fuel `|pspace| + 1` since the active set strictly shrinks. -/
def aplLoop (solver : Finset St → Option AplSol) (D : Finset DRay) (ps : Finset St) :
    ℕ → Finset St → Option (Except PyErr (Option Bool))
  | 0, _ => none
  | fuel + 1, A =>
    if A = ∅ then some (.ok none)
    else
      match solver A with
      | none => some (.error .valueError)
      | some s =>
        if ∀ ω ∈ A, s.tau ω = 0 then some (.ok (some true))
        else if ∀ ω ∈ A, s.tau ω ≠ 0 then some (.ok (some false))
        else
          if A.filter (fun ω => s.tau ω = 1) = ∅ then some (.error .attributeError)
          else aplLoop solver D ps fuel (A.filter (fun ω => s.tau ω = 1))

/-- `DesirSet.apl`: evaluate `self.pspace()` (raising `TypeError` on an empty
set), then run the iteration starting from the full possibility space. -/
def apl (solver : Finset St → Option AplSol) (D : Finset DRay) :
    Option (Except PyErr (Option Bool)) :=
  if D = ∅ then some (.error .typeError)
  else aplLoop solver D (pspaceR D) ((pspaceR D).card + 1) (pspaceR D)

/-- A one-state desirability set `{DiRay({'a': -1})}` whose sole gamble is a
partial (indeed sure) loss. -/
def dRay0 : DRay := ⟨Vec.ofFun {"a"} (fun _ => -1), zeroVec⟩

/-- An adapter that answers the (unique) round LP for `{dRay0}` with its
optimal solution `λ = 1`, `τ = 1`. -/
def solver0 : Finset St → Option AplSol := fun _ => some ⟨fun _ => 1, fun _ => 1⟩

/-- The predicate "supported inside the possibility space `ps`": the
zero-extension semantics of all murasyp vectors, as bare functions. -/
def suppIn (ps : Finset St) (f : St → ℚ) : Prop := ∀ x, x ∉ ps → f x = 0

/-- The pairing `Σ_{x ∈ ps} p[x]·f[x]` over the possibility space — the
bilinear form both directions of the duality transform are built from. -/
def dotOn (ps : Finset St) (p f : St → ℚ) : ℚ := ∑ x ∈ ps, p x * f x

/-- Conic combinations of a list of generators, defined structurally: the
cone of `[]` is `{0}`, and the cone of `a :: L` adds a nonnegative multiple
of `a` to a member of the cone of `L`. -/
def coneL : List (St → ℚ) → Set (St → ℚ)
  | [] => {0}
  | a :: L => {f | ∃ μ : ℚ, 0 ≤ μ ∧ ∃ g ∈ coneL L, f = μ • a + g}

/-- The conic hull of the generator rays of a finite set of `Vec`s, as
zero-extended functions — the "same conic hull" equivalence of uncertainty
models by which the specification compares round-tripped desirability sets. -/
def coneV (G : Finset Vec) : Set (St → ℚ) :=
  {f | ∃ c : Vec → ℚ, (∀ r ∈ G, 0 ≤ c r) ∧ f = ∑ r ∈ G, c r • r.val}

/-- Sequencing of fallible constructors over a list (the Python set/list
comprehension semantics: the first raising element propagates). -/
def mapE {α β : Type} (F : α → Except PyErr β) : List α → Except PyErr (List β)
  | [] => .ok []
  | a :: l =>
    match F a with
    | .error e => .error e
    | .ok b =>
      match mapE F l with
      | .error e => .error e
      | .ok bs => .ok (b :: bs)

/-- The generator rows emitted from the polyhedron adapter's output: every
row of the V-representation, plus the negation of every row of the lineality
set (`ext[i]` and `-ext[i]` for `i in ext.lin_set`). -/
def rowsOf (ext lin : List (St → ℚ)) : List (St → ℚ) :=
  ext ++ lin.map (fun v => fun x => -(v x))

/-- `DesirSet.get_credal`: evaluate `self.pspace()` (raising `TypeError` when
the set is empty), request the V-representation of the polyhedron
`{p : Σ_x p[x]·r[x] ≥ 0 for every generator ray r}` from the external
double-description adapter (out of scope per §6; its output rows `ext`/`lin`
are parameters, constrained in the theorems by the contract
`coneL (rowsOf ext lin) = dualV pspace D`), and wrap each emitted row — a
dict over the pspace coordinates — as a `PMFunc`.  The claim's closed
DesirabilitySets have singleton-generator cones, so the set is modelled by
its generator rays directly. -/
def getCredal (D : Finset Vec) (ext lin : List (St → ℚ)) : Except PyErr (Finset Vec) :=
  if D = ∅ then .error .typeError
  else
    match mapE (fun v => pmfMk (Vec.ofFun (D.sup Vec.dom) v)) (rowsOf ext lin) with
    | .error e => .error e
    | .ok l => .ok l.toFinset

/-- `CredalSet.get_desir`: evaluate `self.pspace()` (raising `TypeError` when
the set is empty), request the V-representation of
`{g : Σ_x p[x]·g[x] ≥ 0 for every member p}` from the adapter, and wrap each
emitted row as a `Ray`. -/
def getDesir (K : Finset Vec) (ext lin : List (St → ℚ)) : Except PyErr (Finset Vec) :=
  if K = ∅ then .error .typeError
  else
    match mapE (fun v => rayMk (Vec.ofFun (K.sup Vec.dom) v)) (rowsOf ext lin) with
    | .error e => .error e
    | .ok l => .ok l.toFinset

/-- The credal set `get_credal` builds from the adapter rows on its success
path: each row sum-normalized and support-restricted. -/
def credalOf (ps : Finset St) (rows : List (St → ℚ)) : Finset Vec :=
  (rows.map (fun v => umfVal (Vec.ofFun ps v))).toFinset

/-- The desirability set `get_desir` builds from the adapter rows on its
success path: each row max-norm-normalized and support-restricted. -/
def desirOf (ps : Finset St) (rows : List (St → ℚ)) : Finset Vec :=
  (rows.map (fun v => rayVal (Vec.ofFun ps v))).toFinset

/-- The dual cone (over the possibility space `ps`) of the rays of `G`: the
feasible region of the homogeneous inequality system `get_credal` and
`get_desir` hand to the polyhedron adapter. -/
def dualV (ps : Finset St) (G : Finset Vec) : Set (St → ℚ) :=
  {p | suppIn ps p ∧ ∀ r ∈ G, 0 ≤ dotOn ps p r.val}

/-- The total mass of an adapter row over the possibility space. -/
def massOn (ps : Finset St) (v : St → ℚ) : ℚ := ∑ x ∈ ps, v x

/-- A function on the two-state space `{'a','b'}`. -/
def fn2 (qa qb : ℚ) : St → ℚ := fun x => if x = "a" then qa else if x = "b" then qb else 0

/-- The ray `Ray({'a': 1, 'b': -1})`. -/
def vAB : Vec := Vec.ofFun {"a", "b"} (fn2 1 (-1))

/-- The closed DesirabilitySet `{Ray({'a': 1, 'b': -1})}` (one singleton
cone). -/
def D0c : Finset Vec := {vAB}

/-- The V-representation rows of the dual halfplane `{p : p_a ≥ p_b}` in the
shape the cdd adapter reports them: the ray `(1,-1)` plus the lineality line
spanned by `(1,1)`. -/
def ext1c : List (St → ℚ) := [fn2 1 1, fn2 1 (-1)]

def lin1c : List (St → ℚ) := [fn2 1 1]

/-- Witness data for the amended C1: the closed DesirabilitySet
`D = {Ray({'a': 1})}` on the singleton possibility space; the adapter
reports the dual cone (the nonnegative halfline at `'a'`) with the single
extreme ray `(1)` and no lineality, both on the way out and on the way
back. -/
def extW : List (St → ℚ) := [fn2 1 0]

def vAW : Vec := Vec.ofFun {"a"} (fn2 1 0)

def DW : Finset Vec := {vAW}


theorem Vec.ext_dom_val {f g : Vec} (hdom : f.dom = g.dom)
    (hval : ∀ x ∈ f.dom, f.val x = g.val x) : f = g := by
  obtain ⟨df, vf, hf⟩ := f
  obtain ⟨dg, vg, hg⟩ := g
  simp only at hdom hval
  subst hdom
  have : vf = vg := by
    funext x
    by_cases hx : x ∈ df
    · exact hval x hx
    · rw [hf x hx, hg x hx]
  simp [this]

@[simp] theorem Vec.ofFun_dom (s : Finset St) (v : St → ℚ) : (Vec.ofFun s v).dom = s := rfl

theorem Vec.ofFun_val (s : Finset St) (v : St → ℚ) (x : St) :
    (Vec.ofFun s v).val x = if x ∈ s then v x else 0 := rfl

theorem Vec.ofFun_val_mem {s : Finset St} {x : St} (hx : x ∈ s) (v : St → ℚ) :
    (Vec.ofFun s v).val x = v x := by simp [Vec.ofFun, hx]

theorem Vec.mem_supp {f : Vec} {x : St} : x ∈ f.supp ↔ x ∈ f.dom ∧ f.val x ≠ 0 := by
  simp [Vec.supp]

theorem Vec.val_ne_zero_of_mem_supp {f : Vec} {x : St} (h : x ∈ f.supp) : f.val x ≠ 0 :=
  (Vec.mem_supp.mp h).2

theorem Vec.supp_val_eq_zero {f : Vec} {x : St} (h : x ∉ f.supp) : f.val x = 0 := by
  by_cases hd : x ∈ f.dom
  · by_contra hv
    exact h (Vec.mem_supp.mpr ⟨hd, hv⟩)
  · exact f.zero_off x hd

theorem Vec.restrictSupp_dom (f : Vec) : f.restrictSupp.dom = f.supp := rfl

theorem Vec.restrictSupp_val (f : Vec) (x : St) : f.restrictSupp.val x = f.val x := by
  unfold Vec.restrictSupp Vec.restrict
  rw [Vec.ofFun_val]
  by_cases h : x ∈ f.supp
  · simp [h]
  · simp [h, Vec.supp_val_eq_zero h]

@[simp] theorem Vec.add_dom (f g : Vec) : (f.add g).dom = f.dom ∪ g.dom := rfl

@[simp] theorem Vec.add_val (f g : Vec) (x : St) : (f.add g).val x = f.val x + g.val x := by
  unfold Vec.add
  rw [Vec.ofFun_val]
  by_cases hx : x ∈ f.dom ∪ g.dom
  · rw [if_pos hx]
  · rw [if_neg hx]
    rw [Finset.mem_union] at hx
    push_neg at hx
    rw [f.zero_off x hx.1, g.zero_off x hx.2, add_zero]

@[simp] theorem Vec.smul_dom (c : ℚ) (f : Vec) : (Vec.smul c f).dom = f.dom := rfl

@[simp] theorem Vec.smul_val (c : ℚ) (f : Vec) (x : St) :
    (Vec.smul c f).val x = f.val x * c := rfl

@[simp] theorem Vec.sdiv_dom (f : Vec) (c : ℚ) : (f.sdiv c).dom = f.dom := rfl

@[simp] theorem Vec.sdiv_val (f : Vec) (c : ℚ) (x : St) : (f.sdiv c).val x = f.val x / c := rfl

theorem Vec.norm_nonneg (f : Vec) : 0 ≤ f.norm := by
  unfold Vec.norm Vec.bounds
  by_cases hne : f.dom.Nonempty
  · rw [dif_pos hne]
    simp only
    rcases le_or_lt 0 ((f.dom.image f.val).max' (Finset.Nonempty.image hne f.val)) with h | h
    · exact le_trans h (le_max_right _ _)
    · obtain ⟨y, hy⟩ := hne
      have hmem : f.val y ∈ f.dom.image f.val := Finset.mem_image_of_mem f.val hy
      have hmm : (f.dom.image f.val).min' (Finset.Nonempty.image ⟨y, hy⟩ f.val) ≤
          (f.dom.image f.val).max' (Finset.Nonempty.image ⟨y, hy⟩ f.val) :=
        le_trans (Finset.min'_le _ _ hmem) (Finset.le_max' _ _ hmem)
      have : 0 ≤ -((f.dom.image f.val).min' (Finset.Nonempty.image ⟨y, hy⟩ f.val)) := by
        linarith
      exact le_trans this (le_max_left _ _)
  · rw [dif_neg hne]; simp

theorem Vec.abs_val_le_norm (f : Vec) (x : St) : |f.val x| ≤ f.norm := by
  by_cases hx : x ∈ f.dom
  · have hne : f.dom.Nonempty := ⟨x, hx⟩
    have hmem : f.val x ∈ f.dom.image f.val := Finset.mem_image_of_mem f.val hx
    have h1 : (f.dom.image f.val).min' (Finset.Nonempty.image hne f.val) ≤ f.val x :=
      Finset.min'_le _ _ hmem
    have h2 : f.val x ≤ (f.dom.image f.val).max' (Finset.Nonempty.image hne f.val) :=
      Finset.le_max' _ _ hmem
    rw [abs_le]
    unfold Vec.norm Vec.bounds
    rw [dif_pos hne]
    constructor
    · exact le_trans (neg_le_neg (le_max_left _ _)) (by simpa using h1)
    · exact le_trans h2 (le_max_right _ _)
  · rw [f.zero_off x hx, abs_zero]
    exact f.norm_nonneg

theorem Vec.exists_abs_val_eq_norm (f : Vec) (h : f.dom.Nonempty) :
    ∃ x ∈ f.dom, |f.val x| = f.norm := by
  obtain ⟨x0, hx0, hmin⟩ : ∃ x ∈ f.dom,
      f.val x = (f.dom.image f.val).min' (h.image f.val) := by
    have := (f.dom.image f.val).min'_mem (h.image f.val)
    rw [Finset.mem_image] at this
    obtain ⟨x, hx, hv⟩ := this
    exact ⟨x, hx, hv⟩
  obtain ⟨x1, hx1, hmax⟩ : ∃ x ∈ f.dom,
      f.val x = (f.dom.image f.val).max' (h.image f.val) := by
    have := (f.dom.image f.val).max'_mem (h.image f.val)
    rw [Finset.mem_image] at this
    obtain ⟨x, hx, hv⟩ := this
    exact ⟨x, hx, hv⟩
  have hle : f.val x0 ≤ f.val x1 := by
    have hmem : f.val x0 ∈ f.dom.image f.val := Finset.mem_image_of_mem f.val hx0
    rw [hmax]
    exact Finset.le_max' _ _ hmem
  unfold Vec.norm Vec.bounds
  rw [dif_pos h]
  simp only [← hmin, ← hmax]
  rcases le_total (-(f.val x0)) (f.val x1) with hc | hc
  · refine ⟨x1, hx1, ?_⟩
    rw [max_eq_right hc, abs_of_nonneg (by linarith)]
  · refine ⟨x0, hx0, ?_⟩
    rw [max_eq_left hc, abs_of_nonpos (by linarith)]

theorem Vec.norm_eq_zero_iff (f : Vec) : f.norm = 0 ↔ ∀ x, f.val x = 0 := by
  constructor
  · intro h x
    have := f.abs_val_le_norm x
    rw [h] at this
    have := abs_nonneg (f.val x)
    have : |f.val x| = 0 := le_antisymm (by linarith) (by positivity)
    exact abs_eq_zero.mp this
  · intro h
    by_cases hne : f.dom.Nonempty
    · obtain ⟨x, hx, hv⟩ := f.exists_abs_val_eq_norm hne
      rw [← hv, h, abs_zero]
    · unfold Vec.norm Vec.bounds
      rw [dif_neg hne]; simp

theorem Vec.norm_eq_of (f : Vec) {n : ℚ} (h1 : ∀ x ∈ f.dom, |f.val x| ≤ n)
    (h2 : ∃ x ∈ f.dom, |f.val x| = n) : f.norm = n := by
  obtain ⟨x, hx, hv⟩ := h2
  refine le_antisymm ?_ (hv ▸ f.abs_val_le_norm x)
  obtain ⟨y, hy, hvy⟩ := f.exists_abs_val_eq_norm ⟨x, hx⟩
  rw [← hvy]
  exact h1 y hy

theorem Vec.supp_sdiv (f : Vec) {c : ℚ} (hc : c ≠ 0) : (f.sdiv c).supp = f.supp := by
  ext x
  simp only [Vec.mem_supp, Vec.sdiv_dom, Vec.sdiv_val]
  constructor
  · rintro ⟨hd, hv⟩
    exact ⟨hd, fun h => hv (by rw [h, zero_div])⟩
  · rintro ⟨hd, hv⟩
    exact ⟨hd, div_ne_zero hv hc⟩

theorem Vec.norm_sdiv_pos (f : Vec) {c : ℚ} (hc : 0 < c) : (f.sdiv c).norm = f.norm / c := by
  by_cases hne : f.dom.Nonempty
  · apply Vec.norm_eq_of
    · intro x hx
      rw [Vec.sdiv_val, abs_div, abs_of_pos hc]
      exact div_le_div_of_nonneg_right (f.abs_val_le_norm x) hc.le
    · obtain ⟨x, hx, hv⟩ := f.exists_abs_val_eq_norm hne
      refine ⟨x, hx, ?_⟩
      rw [Vec.sdiv_val, abs_div, abs_of_pos hc, hv]
  · have h0 : f.norm = 0 := by
      unfold Vec.norm Vec.bounds
      rw [dif_neg hne]; simp
    have h0' : (f.sdiv c).norm = 0 := by
      unfold Vec.norm Vec.bounds
      simp only [Vec.sdiv_dom]
      rw [dif_neg hne]; simp
    rw [h0, h0', zero_div]

theorem Vec.norm_pos_of_ne_zero (f : Vec) (h : f.norm ≠ 0) : 0 < f.norm :=
  lt_of_le_of_ne f.norm_nonneg (Ne.symm h)

theorem Vec.norm_restrictSupp (f : Vec) (h : f.norm ≠ 0) : f.restrictSupp.norm = f.norm := by
  have hne : ∃ x, f.val x ≠ 0 := by
    by_contra hall
    push_neg at hall
    exact h (f.norm_eq_zero_iff.mpr hall)
  obtain ⟨x, hx⟩ := hne
  have hxd : x ∈ f.dom := by
    by_contra hxd
    exact hx (f.zero_off x hxd)
  apply Vec.norm_eq_of
  · intro y _
    rw [Vec.restrictSupp_val]
    exact f.abs_val_le_norm y
  · obtain ⟨y, hy, hv⟩ := f.exists_abs_val_eq_norm ⟨x, hxd⟩
    have hyv : f.val y ≠ 0 := by
      intro h0
      rw [h0, abs_zero] at hv
      exact h hv.symm
    refine ⟨y, ?_, ?_⟩
    · rw [Vec.restrictSupp_dom, Vec.mem_supp]
      exact ⟨hy, hyv⟩
    · rw [Vec.restrictSupp_val]
      exact hv

theorem Vec.supp_eq_dom_restrictSupp (f : Vec) : f.restrictSupp.supp = f.restrictSupp.dom := by
  ext x
  rw [Vec.mem_supp, Vec.restrictSupp_dom]
  constructor
  · rintro ⟨h, _⟩
    exact h
  · intro h
    refine ⟨h, ?_⟩
    rw [Vec.restrictSupp_val]
    exact Vec.val_ne_zero_of_mem_supp h

theorem Vec.restrictSupp_eq_self {f : Vec} (h : f.supp = f.dom) : f.restrictSupp = f :=
  Vec.ext_dom_val (by rw [Vec.restrictSupp_dom, h]) (fun x _ => f.restrictSupp_val x)

theorem Vec.sdiv_one (f : Vec) : f.sdiv 1 = f :=
  Vec.ext_dom_val rfl (fun x _ => by rw [Vec.sdiv_val, div_one])

theorem rayVal_norm (f : Vec) (h : f.norm ≠ 0) : (rayVal f).norm = 1 := by
  unfold rayVal Vec.normalizedD
  have hpos := f.norm_pos_of_ne_zero h
  have hs : (f.sdiv f.norm).norm = 1 := by
    rw [f.norm_sdiv_pos hpos, div_self h]
  rw [Vec.norm_restrictSupp _ (by rw [hs]; exact one_ne_zero), hs]

theorem rayVal_idem (f : Vec) (h : f.norm ≠ 0) : rayVal (rayVal f) = rayVal f := by
  have h1 : (rayVal f).norm = 1 := rayVal_norm f h
  show ((rayVal f).sdiv (rayVal f).norm).restrictSupp = rayVal f
  rw [h1, Vec.sdiv_one]
  exact Vec.restrictSupp_eq_self (by unfold rayVal; exact Vec.supp_eq_dom_restrictSupp _)

theorem rayMk_rayVal (f : Vec) (h : f.norm ≠ 0) : rayMk (rayVal f) = .ok (rayVal f) := by
  unfold rayMk
  rw [if_neg (by rw [rayVal_norm f h]; exact one_ne_zero), rayVal_idem f h]

theorem Vec.mass_restrictSupp (f : Vec) : f.restrictSupp.mass = f.mass := by
  unfold Vec.mass
  rw [Vec.restrictSupp_dom]
  calc ∑ x ∈ f.supp, f.restrictSupp.val x
      = ∑ x ∈ f.supp, f.val x := Finset.sum_congr rfl (fun x _ => f.restrictSupp_val x)
    _ = ∑ x ∈ f.dom, f.val x := Finset.sum_filter_ne_zero f.dom

theorem Vec.mass_sdiv (f : Vec) (c : ℚ) : (f.sdiv c).mass = f.mass / c := by
  unfold Vec.mass
  rw [Vec.sdiv_dom]
  calc ∑ x ∈ f.dom, (f.sdiv c).val x
      = ∑ x ∈ f.dom, f.val x / c := Finset.sum_congr rfl (fun x _ => f.sdiv_val c x)
    _ = (∑ x ∈ f.dom, f.val x) / c := (Finset.sum_div _ _ _).symm

theorem umfVal_mass (f : Vec) (h : f.mass ≠ 0) : (umfVal f).mass = 1 := by
  unfold umfVal
  rw [Vec.mass_restrictSupp, Vec.mass_sdiv, div_self h]

theorem umfVal_dom_eq_supp (f : Vec) : (umfVal f).supp = (umfVal f).dom :=
  Vec.supp_eq_dom_restrictSupp _

theorem umfVal_val (f : Vec) (x : St) : (umfVal f).val x = f.val x / f.mass := by
  unfold umfVal
  rw [Vec.restrictSupp_val, Vec.sdiv_val]

theorem restrict_mass (p : Vec) (s : Finset St) :
    (p.restrict s).mass = ∑ x ∈ s, p.val x := by
  unfold Vec.mass Vec.restrict
  rw [Vec.ofFun_dom]
  exact Finset.sum_congr rfl (fun x hx => Vec.ofFun_val_mem hx _)

theorem Vec.val_nonneg_total {p : Vec} (hp : p.is_nonnegative) : ∀ x, 0 ≤ p.val x := by
  intro x
  by_cases hx : x ∈ p.dom
  · exact hp x hx
  · rw [p.zero_off x hx]

theorem restrict_val_nonneg {p : Vec} (hp : p.is_nonnegative) (s : Finset St) (x : St) :
    0 ≤ (p.restrict s).val x := by
  unfold Vec.restrict
  rw [Vec.ofFun_val]
  by_cases hx : x ∈ s
  · rw [if_pos hx]
    exact Vec.val_nonneg_total hp x
  · rw [if_neg hx]

theorem condMass_nonneg {p : Vec} (hp : p.is_nonnegative) (f : Vec) : 0 ≤ condMass p f :=
  Finset.sum_nonneg (fun x _ => Vec.val_nonneg_total hp x)

theorem pmfCond_ok (p f : Vec) (hp : p.is_nonnegative) (hm : condMass p f ≠ 0) :
    pmfCond p (p.dom ∩ f.dom) = .ok (umfVal (p.restrict (p.dom ∩ f.dom))) := by
  have hgm : (p.restrict (p.dom ∩ f.dom)).mass = condMass p f :=
    restrict_mass p _
  have hnn : (umfVal (p.restrict (p.dom ∩ f.dom))).is_nonnegative := by
    intro x _
    rw [umfVal_val, hgm]
    exact div_nonneg (restrict_val_nonneg hp _ x) (condMass_nonneg hp f)
  unfold pmfCond pmfMk umfMk
  rw [if_neg (by rw [hgm]; exact hm)]
  show (if (umfVal (p.restrict (p.dom ∩ f.dom))).is_nonnegative then
      Except.ok (umfVal (p.restrict (p.dom ∩ f.dom))) else Except.error PyErr.valueError) = _
  rw [if_pos hnn]

theorem umfExpect_ok (p f : Vec) (hp : p.is_nonnegative) (hm : condMass p f ≠ 0) :
    umfExpect p f = .ok (expectVal p f) := by
  unfold umfExpect
  rw [pmfCond_ok p f hp hm]
  show Except.ok _ = _
  congr 1
  unfold expectVal
  refine Finset.sum_congr rfl (fun x hx => ?_)
  congr 1
  rw [umfVal_val, restrict_mass p _]
  congr 1
  exact Vec.ofFun_val_mem hx _

/-- Evaluation of a `Finset.min'` over a pair. -/
theorem min'_pair (a b : ℚ) (h : ({a, b} : Finset ℚ).Nonempty) :
    ({a, b} : Finset ℚ).min' h = min a b := by
  apply le_antisymm
  · rcases le_total a b with hc | hc
    · rw [min_eq_left hc]; exact Finset.min'_le _ _ (by simp)
    · rw [min_eq_right hc]; exact Finset.min'_le _ _ (by simp)
  · apply Finset.le_min'
    intro y hy
    simp only [Finset.mem_insert, Finset.mem_singleton] at hy
    rcases hy with rfl | rfl
    · exact min_le_left _ _
    · exact min_le_right _ _

/-- Evaluation of a `Finset.max'` over a pair. -/
theorem max'_pair (a b : ℚ) (h : ({a, b} : Finset ℚ).Nonempty) :
    ({a, b} : Finset ℚ).max' h = max a b := by
  apply le_antisymm
  · apply Finset.max'_le
    intro y hy
    simp only [Finset.mem_insert, Finset.mem_singleton] at hy
    rcases hy with rfl | rfl
    · exact le_max_left _ _
    · exact le_max_right _ _
  · rcases le_total a b with hc | hc
    · rw [max_eq_right hc]; exact Finset.le_max' _ _ (by simp)
    · rw [max_eq_left hc]; exact Finset.le_max' _ _ (by simp)

/-- Under the invariants of a `PMFunc` member whose domain is contained in the
gamble's domain, the value computed by `UMFunc.__mul__` is the plain
zero-extended expectation. -/
theorem expectVal_eq_dotExpect (p f : Vec) (hm : p.mass = 1)
    (hd : p.dom ⊆ f.dom) : expectVal p f = dotExpect p f := by
  have hinter : p.dom ∩ f.dom = p.dom := Finset.inter_eq_left.mpr hd
  have hunion : p.dom ∪ f.dom = f.dom := Finset.union_eq_right.mpr hd
  have hcm : condMass p f = 1 := by
    unfold condMass
    rw [hinter]
    exact hm
  unfold expectVal dotExpect
  rw [hinter, hunion, hcm]
  simp only [div_one]
  exact Finset.sum_subset hd (fun x _ hx => by rw [p.zero_off x hx, zero_mul])

theorem condMass_eq_one (p f : Vec) (hm : p.mass = 1) (hd : p.dom ⊆ f.dom) :
    condMass p f = 1 := by
  unfold condMass
  rw [Finset.inter_eq_left.mpr hd]
  exact hm

-- Concrete vectors for the doctest scenarios.

theorem pmfP_nonneg : pmfP.is_nonnegative := by
  intro x hx
  simp only [pmfP, Vec.ofFun_dom, Vec.ofFun_val, Finset.mem_insert, Finset.mem_singleton] at hx ⊢
  rcases hx with rfl | rfl | rfl <;> simp <;> norm_num

theorem pmfQ_nonneg : pmfQ.is_nonnegative := by
  intro x hx
  simp only [pmfQ, Vec.ofFun_dom, Vec.ofFun_val, Finset.mem_insert, Finset.mem_singleton] at hx ⊢
  rcases hx with rfl | rfl | rfl <;> simp <;> norm_num

theorem pmfP_mass : pmfP.mass = 1 := by
  unfold Vec.mass pmfP
  simp only [Vec.ofFun_dom]
  rw [Finset.sum_insert (by decide), Finset.sum_insert (by decide), Finset.sum_singleton]
  simp only [Vec.ofFun_val]
  simp
  norm_num

theorem pmfQ_mass : pmfQ.mass = 1 := by
  unfold Vec.mass pmfQ
  simp only [Vec.ofFun_dom]
  rw [Finset.sum_insert (by decide), Finset.sum_insert (by decide), Finset.sum_singleton]
  simp only [Vec.ofFun_val]
  simp
  norm_num

theorem condMass_P_Fr : condMass pmfP gambleFr = 1/10 := by
  unfold condMass pmfP gambleFr
  simp only [Vec.ofFun_dom]
  rw [show ({"a", "b", "c"} : Finset St) ∩ {"a", "b"} = {"a", "b"} from by decide]
  rw [Finset.sum_insert (by decide), Finset.sum_singleton]
  simp only [Vec.ofFun_val]
  simp
  norm_num

theorem condMass_Q_Fr : condMass pmfQ gambleFr = 1/10 := by
  unfold condMass pmfQ gambleFr
  simp only [Vec.ofFun_dom]
  rw [show ({"a", "b", "c"} : Finset St) ∩ {"a", "b"} = {"a", "b"} from by decide]
  rw [Finset.sum_insert (by decide), Finset.sum_singleton]
  simp only [Vec.ofFun_val]
  simp
  norm_num

theorem expectVal_P_Fr : expectVal pmfP gambleFr = 2/5 := by
  unfold expectVal
  rw [condMass_P_Fr]
  unfold pmfP gambleFr
  simp only [Vec.ofFun_dom]
  rw [show ({"a", "b", "c"} : Finset St) ∩ {"a", "b"} = {"a", "b"} from by decide]
  rw [Finset.sum_insert (by decide), Finset.sum_singleton]
  simp only [Vec.ofFun_val]
  simp
  norm_num

theorem expectVal_Q_Fr : expectVal pmfQ gambleFr = -2/5 := by
  unfold expectVal
  rw [condMass_Q_Fr]
  unfold pmfQ gambleFr
  simp only [Vec.ofFun_dom]
  rw [show ({"a", "b", "c"} : Finset St) ∩ {"a", "b"} = {"a", "b"} from by decide]
  rw [Finset.sum_insert (by decide), Finset.sum_singleton]
  simp only [Vec.ofFun_val]
  simp
  norm_num

theorem dotExpect_P_Fr : dotExpect pmfP gambleFr = 1/25 := by
  unfold dotExpect pmfP gambleFr
  simp only [Vec.ofFun_dom]
  rw [show ({"a", "b", "c"} : Finset St) ∪ {"a", "b"} = {"a", "b", "c"} from by decide]
  rw [Finset.sum_insert (by decide), Finset.sum_insert (by decide), Finset.sum_singleton]
  simp only [Vec.ofFun_val]
  simp
  norm_num

theorem dotExpect_Q_Fr : dotExpect pmfQ gambleFr = -1/25 := by
  unfold dotExpect pmfQ gambleFr
  simp only [Vec.ofFun_dom]
  rw [show ({"a", "b", "c"} : Finset St) ∪ {"a", "b"} = {"a", "b", "c"} from by decide]
  rw [Finset.sum_insert (by decide), Finset.sum_insert (by decide), Finset.sum_singleton]
  simp only [Vec.ofFun_val]
  simp
  norm_num

theorem pmfP_ne_pmfQ : pmfP ≠ pmfQ := by
  intro h
  have := congrArg (fun v => Vec.val v "a") h
  simp only [pmfP, pmfQ, Vec.ofFun_val] at this
  simp at this
  norm_num at this

theorem min'_eq_of_eq {s t : Finset ℚ} (h : s = t) (hs : s.Nonempty) (ht : t.Nonempty) :
    s.min' hs = t.min' ht := by subst h; rfl

theorem max'_eq_of_eq {s t : Finset ℚ} (h : s = t) (hs : s.Nonempty) (ht : t.Nonempty) :
    s.max' hs = t.max' ht := by subst h; rfl

theorem dotExpect_P_F : dotExpect pmfP gambleF = 1/25 := by
  unfold dotExpect pmfP gambleF
  simp only [Vec.ofFun_dom]
  rw [show ({"a", "b", "c"} : Finset St) ∪ {"a", "b", "c"} = {"a", "b", "c"} from by decide]
  rw [Finset.sum_insert (by decide), Finset.sum_insert (by decide), Finset.sum_singleton]
  simp only [Vec.ofFun_val]
  simp
  norm_num

theorem dotExpect_Q_F : dotExpect pmfQ gambleF = -1/25 := by
  unfold dotExpect pmfQ gambleF
  simp only [Vec.ofFun_dom]
  rw [show ({"a", "b", "c"} : Finset St) ∪ {"a", "b", "c"} = {"a", "b", "c"} from by decide]
  rw [Finset.sum_insert (by decide), Finset.sum_insert (by decide), Finset.sum_singleton]
  simp only [Vec.ofFun_val]
  simp
  norm_num

/-- C4 (amended): for every nonempty `CredalSet` and every gamble `f` whose
domain contains each member's domain, the lower expectation `K * f` is the
minimum over the member PMFs of the plain zero-extended expectation
`Σ_x p[x]·f[x]`, and the upper expectation `K ** f` the maximum.  (Without
the domain condition the member terms are expectations conditional on
`dom p ∩ dom f`, see the counterexample.) -/
theorem claim_C4_amended_credal_lower_upper (K : Finset Vec) (f : Vec) (hK : K.Nonempty)
    (hmem : ∀ p ∈ K, p.is_nonnegative ∧ p.mass = 1 ∧ p.dom ⊆ f.dom) :
    credalMul K f = .ok ((K.image (fun p => dotExpect p f)).min' (hK.image _)) ∧
    credalPow K f = .ok ((K.image (fun p => dotExpect p f)).max' (hK.image _)) := by
  have hok : ∀ p ∈ K, (umfExpect p f).isOk = true := by
    intro p hp
    obtain ⟨h1, h2, h3⟩ := hmem p hp
    rw [umfExpect_ok p f h1 (by rw [condMass_eq_one p f h2 h3]; exact one_ne_zero)]
    rfl
  have himg : K.image (fun p => expectVal p f) = K.image (fun p => dotExpect p f) :=
    Finset.image_congr (fun p hp => expectVal_eq_dotExpect p f (hmem p hp).2.1 (hmem p hp).2.2)
  constructor
  · unfold credalMul
    rw [dif_pos hK, if_pos hok]
    exact congrArg Except.ok (min'_eq_of_eq himg _ _)
  · unfold credalPow
    rw [dif_pos hK, if_pos hok]
    exact congrArg Except.ok (max'_eq_of_eq himg _ _)

/-- Witness for C4 (amended): Scenario 3 of the specification.  The credal set
`{PMF({'a':.03,'b':.07,'c':.9}), PMF({'a':.07,'b':.03,'c':.9})}` and the
gamble `{'a':-1,'b':1,'c':0}` (full domain, so the amendment's hypothesis
holds) give lower expectation `-1/25` and upper expectation `1/25`. -/
theorem claim_C4_witness :
    credalMul {pmfP, pmfQ} gambleF = .ok (-1/25) ∧
    credalPow {pmfP, pmfQ} gambleF = .ok (1/25) := by
  have hK : ({pmfP, pmfQ} : Finset Vec).Nonempty := Finset.insert_nonempty _ _
  have hd : ({"a", "b", "c"} : Finset St) ⊆ {"a", "b", "c"} := Finset.Subset.refl _
  have hmem : ∀ p ∈ ({pmfP, pmfQ} : Finset Vec),
      p.is_nonnegative ∧ p.mass = 1 ∧ p.dom ⊆ gambleF.dom := by
    intro p hp
    rcases Finset.mem_insert.mp hp with rfl | hp
    · exact ⟨pmfP_nonneg, pmfP_mass, hd⟩
    · rw [Finset.mem_singleton.mp hp]
      exact ⟨pmfQ_nonneg, pmfQ_mass, hd⟩
  have h := claim_C4_amended_credal_lower_upper {pmfP, pmfQ} gambleF hK hmem
  have himg : ({pmfP, pmfQ} : Finset Vec).image (fun p => dotExpect p gambleF) =
      {(1 : ℚ)/25, -1/25} := by
    rw [Finset.image_insert, Finset.image_singleton, dotExpect_P_F, dotExpect_Q_F]
  constructor
  · rw [h.1]
    refine congrArg Except.ok ?_
    rw [min'_eq_of_eq himg _ (by simp), min'_pair]
    norm_num [min_def]
  · rw [h.2]
    refine congrArg Except.ok ?_
    rw [max'_eq_of_eq himg _ (by simp), max'_pair]
    norm_num [max_def]

/-- Counterexample to C4 as stated: for the Scenario-3 credal set and the
gamble `{'a':-1,'b':1}` (a strict subdomain of the members' domains), the code
conditions each member on `{'a','b'}` before taking expectations and returns
`-2/5`, whereas the minimum of the plain sums `Σ_x p[x]·f[x]` is `-1/25`. -/
theorem claim_C4_counterexample :
    credalMul {pmfP, pmfQ} gambleFr = .ok (-2/5) ∧
    (({pmfP, pmfQ} : Finset Vec).image (fun p => dotExpect p gambleFr)).min' (by simp) = -1/25 ∧
    ((-2 : ℚ)/5 ≠ -1/25) := by
  refine ⟨?_, ?_, by norm_num⟩
  · have hok : ∀ p ∈ ({pmfP, pmfQ} : Finset Vec), (umfExpect p gambleFr).isOk = true := by
      intro p hp
      rcases Finset.mem_insert.mp hp with rfl | hp
      · rw [umfExpect_ok _ _ pmfP_nonneg (by rw [condMass_P_Fr]; norm_num)]; rfl
      · rw [Finset.mem_singleton.mp hp]
        rw [umfExpect_ok _ _ pmfQ_nonneg (by rw [condMass_Q_Fr]; norm_num)]; rfl
    unfold credalMul
    rw [dif_pos (Finset.insert_nonempty _ _), if_pos hok]
    refine congrArg Except.ok ?_
    have himg : ({pmfP, pmfQ} : Finset Vec).image (fun p => expectVal p gambleFr) =
        {(2 : ℚ)/5, -2/5} := by
      rw [Finset.image_insert, Finset.image_singleton, expectVal_P_Fr, expectVal_Q_Fr]
    rw [min'_eq_of_eq himg _ (by simp), min'_pair]
    norm_num [min_def]
  · have himg : ({pmfP, pmfQ} : Finset Vec).image (fun p => dotExpect p gambleFr) =
        {(1 : ℚ)/25, -1/25} := by
      rw [Finset.image_insert, Finset.image_singleton, dotExpect_P_Fr, dotExpect_Q_Fr]
    rw [min'_eq_of_eq himg _ (by simp), min'_pair]
    norm_num [min_def]

/-- C7: querying the lower expectation (the `*` operator) of any gamble on an
empty `CredalSet` executes `raise Error(...)` where `Error` is an undefined
name (it is neither defined in `murasyp.credalsets` nor among its imports), so
Python raises `NameError` — there is no dedicated `EmptyCredalSetError` class
anywhere in the code. -/
theorem claim_C7_empty_credal_nameError (f : Vec) :
    credalMul (∅ : Finset Vec) f = .error .nameError := by
  unfold credalMul
  rw [dif_neg (by simp)]

/-- Witness for C7 at a concrete gamble. -/
theorem claim_C7_witness : credalMul (∅ : Finset Vec) gambleF = .error .nameError :=
  claim_C7_empty_credal_nameError gambleF

/-- C3: conditioning the credal set `{PMF({'a': 1})}` on the event `{'b'}`
(to which the member assigns zero mass) raises `ValueError` from the
re-normalization inside `UMFunc.__or__`; it does not return the vacuous credal
set `{PMF({'b': 1})}` — the `None`-check fallback branch in
`CredalSet.__or__` is unreachable. -/
theorem claim_C3_zero_mass_conditioning :
    credalCond {indicator {"a"}} {"b"} = .error .valueError ∧
    vacuousCredal {"b"} = {indicator {"b"}} ∧
    credalCond {indicator {"a"}} {"b"} ≠ .ok (vacuousCredal {"b"}) := by
  have hmass : ((indicator {"a"}).restrict {"b"}).mass = 0 := by
    rw [restrict_mass, Finset.sum_singleton]
    unfold indicator
    rw [Vec.ofFun_val]
    simp
  have hcond : pmfCond (indicator {"a"}) {"b"} = .error .valueError := by
    unfold pmfCond pmfMk umfMk
    rw [if_pos hmass]
  have h1 : credalCond {indicator {"a"}} {"b"} = .error .valueError := by
    unfold credalCond
    rw [if_neg]
    intro h
    have := h (indicator {"a"}) (Finset.mem_singleton_self _)
    rw [hcond] at this
    exact Bool.noConfusion this
  refine ⟨h1, ?_, ?_⟩
  · unfold vacuousCredal
    rw [Finset.image_singleton]
  · rw [h1]
    intro h
    exact Except.noConfusion h

theorem supp_eq_dom_of_vals_ne_zero (f : Vec) (h : ∀ x ∈ f.dom, f.val x ≠ 0) :
    f.supp = f.dom := by
  unfold Vec.supp
  exact Finset.filter_true_of_mem h

/-- C9: for all Gambles `f` and `g`, the sum `f + g` has domain
`dom f ∪ dom g` and value `f[x] + g[x]` at every point of that union, where a
point missing from an operand's domain contributes exactly `0` (the
`zero_off` invariant of the zero-extended lookup). -/
theorem claim_C9_gamble_add_union_pointwise (f g : Vec) :
    (f.add g).dom = f.dom ∪ g.dom ∧
    (∀ x ∈ f.dom ∪ g.dom, (f.add g).val x = f.val x + g.val x) ∧
    (∀ x, x ∉ f.dom → f.val x = 0) ∧ (∀ x, x ∉ g.dom → g.val x = 0) :=
  ⟨Vec.add_dom f g, fun x _ => Vec.add_val f g x, f.zero_off, g.zero_off⟩

/-- C10: `PMFunc` construction succeeds on every mapping with nonzero total
mass whose sum-normalized values are all nonnegative, and the result has total
mass one and domain equal to support (zero entries dropped).  Because the sign
check happens only after sum-normalization, inputs with all-nonpositive values
and negative total mass (such as `{'a': -1}`) are accepted as well — see the
witness. -/
theorem claim_C10_pmf_construction (m : Vec) (h1 : m.mass ≠ 0)
    (h2 : ∀ x, 0 ≤ m.val x / m.mass) :
    ∃ p, pmfMk m = .ok p ∧ p.mass = 1 ∧ p.dom = p.supp := by
  refine ⟨umfVal m, ?_, umfVal_mass m h1, (umfVal_dom_eq_supp m).symm⟩
  unfold pmfMk umfMk
  rw [if_neg h1]
  show (if (umfVal m).is_nonnegative then Except.ok (umfVal m) else _) = _
  rw [if_pos]
  intro x _
  rw [umfVal_val]
  exact h2 x

theorem negVec_mass : negVec.mass = -1 := by
  unfold Vec.mass negVec
  rw [Vec.ofFun_dom, Finset.sum_singleton, Vec.ofFun_val]
  simp

/-- Witness for C10: the input `{'a': -1}` has nonzero (negative) mass and
nonnegative sum-normalized values, so the `PMFunc` constructor accepts it; the
resulting PMF is the Dirac function `{'a': 1}`. -/
theorem claim_C10_witness :
    negVec.mass ≠ 0 ∧ (∀ x, 0 ≤ negVec.val x / negVec.mass) ∧
    (∃ p, pmfMk negVec = .ok p ∧ p.mass = 1 ∧ p.dom = p.supp) ∧
    pmfMk negVec = .ok (indicator {"a"}) := by
  have h1 : negVec.mass ≠ 0 := by rw [negVec_mass]; norm_num
  have h2 : ∀ x, 0 ≤ negVec.val x / negVec.mass := by
    intro x
    rw [negVec_mass]
    unfold negVec
    rw [Vec.ofFun_val]
    by_cases hx : x ∈ ({"a"} : Finset St)
    · rw [if_pos hx]; norm_num
    · rw [if_neg hx]; norm_num
  have hval : umfVal negVec = indicator {"a"} := by
    apply Vec.ext_dom_val
    · show ((negVec.sdiv negVec.mass).restrictSupp).dom = _
      rw [Vec.restrictSupp_dom]
      apply Finset.ext
      intro x
      rw [Vec.mem_supp, Vec.sdiv_dom, Vec.sdiv_val, negVec_mass]
      unfold negVec indicator
      rw [Vec.ofFun_dom, Vec.ofFun_val, Vec.ofFun_dom]
      constructor
      · rintro ⟨hx, _⟩
        exact hx
      · intro hx
        refine ⟨hx, ?_⟩
        rw [if_pos hx]
        norm_num
    · intro x hx
      rw [umfVal_val, negVec_mass]
      have hxa : x ∈ ({"a"} : Finset St) := by
        unfold umfVal at hx
        rw [Vec.restrictSupp_dom, Vec.mem_supp, Vec.sdiv_dom] at hx
        exact hx.1
      unfold negVec indicator
      rw [Vec.ofFun_val, Vec.ofFun_val, if_pos hxa, if_pos hxa]
      norm_num
  have h3 := claim_C10_pmf_construction negVec h1 h2
  refine ⟨h1, h2, h3, ?_⟩
  unfold pmfMk umfMk
  rw [if_neg h1]
  show (if (umfVal negVec).is_nonnegative then Except.ok (umfVal negVec) else _) = _
  rw [if_pos (by intro x hx; rw [umfVal_val]; exact h2 x), hval]

theorem rBC_val (x : St) : rBC.val x = if x ∈ ({"b", "c"} : Finset St) then 1 else 0 := by
  unfold rBC indicator
  rw [Vec.ofFun_val]

/-- C8 (code bug, flagged by the source's own warning docstring): `r + r`
for the ray `r = Ray({'b','c'})` is passed back through the `Ray` constructor
and re-normalized, returning the Ray `r` itself (max-norm one) instead of the
plain Gamble `{'b': 2, 'c': 2}` that Gamble-level addition produces; `*` and
`/` do demote to `Gamble` as claimed. -/
theorem claim_C8_ray_add_renormalizes :
    rayAdd rBC rBC = .ok rBC ∧
    (rBC.add rBC).val "b" = 2 ∧
    rBC ≠ rBC.add rBC ∧
    (∀ s : Vec, rayMul rBC s = rBC.gmul s) ∧
    (∀ c : ℚ, rayDiv rBC c = rBC.sdiv c) := by
  have hsum_val : ∀ x ∈ ({"b", "c"} : Finset St), (rBC.add rBC).val x = 2 := by
    intro x hx
    rw [Vec.add_val, rBC_val, if_pos hx]
    norm_num
  have hb : ("b" : St) ∈ ({"b", "c"} : Finset St) := by decide
  have hdom : (rBC.add rBC).dom = {"b", "c"} := by
    rw [Vec.add_dom]
    show ({"b", "c"} : Finset St) ∪ {"b", "c"} = {"b", "c"}
    exact Finset.union_self _
  have hnorm : (rBC.add rBC).norm = 2 := by
    apply Vec.norm_eq_of
    · intro x hx
      rw [hdom] at hx
      rw [hsum_val x hx]
      norm_num
    · refine ⟨"b", ?_, ?_⟩
      · rw [hdom]; exact hb
      · rw [hsum_val "b" hb]; norm_num
  have hsupp : rBC.supp = rBC.dom := by
    apply supp_eq_dom_of_vals_ne_zero
    intro x hx
    have hx' : x ∈ ({"b", "c"} : Finset St) := hx
    rw [rBC_val, if_pos hx']
    norm_num
  have hself : rayVal (rBC.add rBC) = rBC := by
    unfold rayVal Vec.normalizedD
    rw [hnorm]
    have hsd : (rBC.add rBC).sdiv 2 = rBC := by
      apply Vec.ext_dom_val
      · rw [Vec.sdiv_dom, hdom]
        rfl
      · intro x hx
        rw [Vec.sdiv_dom, hdom] at hx
        rw [Vec.sdiv_val, hsum_val x hx, rBC_val, if_pos hx]
        norm_num
    rw [hsd]
    exact Vec.restrictSupp_eq_self hsupp
  refine ⟨?_, ?_, ?_, fun _ => rfl, fun _ => rfl⟩
  · unfold rayAdd rayMk
    rw [if_neg (by rw [hnorm]; norm_num), hself]
  · rw [hsum_val "b" hb]
  · intro h
    have := congrArg (fun v => Vec.val v "b") h
    simp only at this
    rw [rBC_val, if_pos hb, hsum_val "b" hb] at this
    norm_num at this

theorem indicator_norm {s : Finset St} (h : s.Nonempty) : (indicator s).norm = 1 := by
  apply Vec.norm_eq_of
  · intro x hx
    have hx' : x ∈ s := hx
    unfold indicator
    rw [Vec.ofFun_val, if_pos hx']
    norm_num
  · obtain ⟨x, hx⟩ := h
    refine ⟨x, hx, ?_⟩
    unfold indicator
    rw [Vec.ofFun_val, if_pos hx]
    norm_num

theorem rayVal_eq_sdiv (f : Vec) (hvals : ∀ x ∈ f.dom, f.val x ≠ 0) (hnz : f.norm ≠ 0) :
    rayVal f = f.sdiv f.norm := by
  unfold rayVal Vec.normalizedD
  apply Vec.restrictSupp_eq_self
  apply supp_eq_dom_of_vals_ne_zero
  intro x hx
  rw [Vec.sdiv_val]
  exact div_ne_zero (hvals x hx) hnz

theorem rayVal_indicator {s : Finset St} (h : s.Nonempty) : rayVal (indicator s) = indicator s := by
  rw [rayVal_eq_sdiv, indicator_norm h, Vec.sdiv_one]
  · intro x hx
    have hx' : x ∈ s := hx
    unfold indicator
    rw [Vec.ofFun_val, if_pos hx']
    norm_num
  · rw [indicator_norm h]
    norm_num

/-- C5: `set_lower_pr(g, v)` inserts exactly one cone, generated by the rays
obtained from `g - v·indicator(dom g)` (equal to the scalar-shifted gamble,
since the gamble's domain is the conditioning event) and from
`indicator(dom g)` — provided the shifted gamble is not identically zero and
the domain is nonempty, so that both `Ray` constructions succeed. -/
theorem claim_C5_set_lower_pr_cone (D : Finset (Finset Vec)) (g : Vec) (v : ℚ)
    (h1 : g.dom.Nonempty) (h2 : (g.scalarAdd (-v)).norm ≠ 0) :
    setLowerPr D g v =
      .ok (insert {rayVal (g.scalarAdd (-v)), rayVal (indicator g.dom)} D) := by
  have hind : (indicator g.dom).norm = 1 := indicator_norm h1
  unfold setLowerPr rayMk
  rw [if_neg (by rw [hind]; norm_num)]
  show (match coneMk (insert (g.scalarAdd (-v)) {rayVal (indicator g.dom)}) with
    | .error e => Except.error e
    | .ok C => Except.ok (insert C D)) = _
  unfold coneMk
  rw [if_pos]
  · show Except.ok _ = _
    congr 1
    rw [Finset.image_insert, Finset.image_singleton]
    congr 1
    rw [rayVal_idem (indicator g.dom) (by rw [hind]; norm_num)]
  · intro f hf
    rcases Finset.mem_insert.mp hf with rfl | hf
    · exact h2
    · rw [Finset.mem_singleton.mp hf]
      rw [rayVal_norm (indicator g.dom) (by rw [hind]; norm_num)]
      norm_num

theorem gambleAB_dom : gambleAB.dom = {"a", "b", "c"} := rfl

theorem gambleAB_val (x : St) :
    gambleAB.val x = if x ∈ ({"a", "b"} : Finset St) then 1 else 0 := by
  unfold gambleAB Vec.restrict indicator
  rw [Vec.ofFun_val, Vec.ofFun_val]
  by_cases habc : x ∈ ({"a", "b", "c"} : Finset St)
  · rw [if_pos habc]
  · rw [if_neg habc, if_neg (fun hab => habc (Finset.mem_of_subset (by decide) hab))]

theorem shifted_val (x : St) : (gambleAB.scalarAdd (-(2/5))).val x =
    if x ∈ ({"a", "b", "c"} : Finset St) then (if x ∈ ({"a", "b"} : Finset St) then 3/5 else -2/5)
    else 0 := by
  unfold Vec.scalarAdd
  rw [Vec.ofFun_val, gambleAB_dom]
  by_cases hx : x ∈ ({"a", "b", "c"} : Finset St)
  · rw [if_pos hx, if_pos hx, gambleAB_val]
    by_cases hab : x ∈ ({"a", "b"} : Finset St)
    · rw [if_pos hab, if_pos hab]; norm_num
    · rw [if_neg hab, if_neg hab]; norm_num
  · rw [if_neg hx, if_neg hx]

theorem shifted_norm : (gambleAB.scalarAdd (-(2/5))).norm = 3/5 := by
  apply Vec.norm_eq_of
  · intro x hx
    have hx' : x ∈ ({"a", "b", "c"} : Finset St) := hx
    rw [shifted_val, if_pos hx']
    by_cases hab : x ∈ ({"a", "b"} : Finset St)
    · rw [if_pos hab, abs_of_nonneg (by norm_num : (0:ℚ) ≤ 3/5)]
    · rw [if_neg hab, abs_of_nonpos (by norm_num : (-2/5 : ℚ) ≤ 0)]
      norm_num
  · refine ⟨"a", by decide, ?_⟩
    rw [shifted_val]
    rw [if_pos (by decide : ("a" : St) ∈ ({"a", "b", "c"} : Finset St)),
        if_pos (by decide : ("a" : St) ∈ ({"a", "b"} : Finset St)),
        abs_of_nonneg (by norm_num : (0:ℚ) ≤ 3/5)]

theorem shifted_vals_ne_zero :
    ∀ x ∈ (gambleAB.scalarAdd (-(2/5))).dom, (gambleAB.scalarAdd (-(2/5))).val x ≠ 0 := by
  intro x hx
  have hx' : x ∈ ({"a", "b", "c"} : Finset St) := hx
  rw [shifted_val, if_pos hx']
  by_cases hab : x ∈ ({"a", "b"} : Finset St)
  · rw [if_pos hab]; norm_num
  · rw [if_neg hab]; norm_num

theorem rayVal_shifted : rayVal (gambleAB.scalarAdd (-(2/5))) = rayABm := by
  rw [rayVal_eq_sdiv _ shifted_vals_ne_zero (by rw [shifted_norm]; norm_num), shifted_norm]
  apply Vec.ext_dom_val
  · rfl
  · intro x hx
    have hx' : x ∈ ({"a", "b", "c"} : Finset St) := hx
    rw [Vec.sdiv_val, shifted_val]
    unfold rayABm
    rw [Vec.ofFun_val]
    simp only [Finset.mem_insert, Finset.mem_singleton] at hx'
    rcases hx' with rfl | rfl | rfl <;> (simp; try norm_num)

theorem rayVal_domAB : rayVal (indicator gambleAB.dom) = rayABC :=
  rayVal_indicator ⟨"a", by decide⟩

/-- Witness for C5: on an empty DesirabilitySet,
`set_lower_pr(Gamble({'a':1,'b':1}) | {'a','b','c'}, 2/5)` yields exactly the
cone with generators `Ray({'a':1,'b':1,'c':1})` and
`Ray({'a':1,'b':1,'c':'-2/3'})`, mirroring the doctest. -/
theorem claim_C5_witness :
    setLowerPr (∅ : Finset (Finset Vec)) gambleAB (2/5) =
      .ok {({rayABm, rayABC} : Finset Vec)} := by
  have h1 : gambleAB.dom.Nonempty := ⟨"a", by decide⟩
  have h2 : (gambleAB.scalarAdd (-(2/5))).norm ≠ 0 := by rw [shifted_norm]; norm_num
  have h := claim_C5_set_lower_pr_cone ∅ gambleAB (2/5) h1 h2
  rw [h, rayVal_shifted, rayVal_domAB, Finset.insert_empty]

/-- C6 (amended): calling `asl()` on an empty DesirabilitySet does not return
`True`; `self.pspace()` raises `TypeError` (the empty `frozenset.union(*())`
call), whatever the LP adapter would answer. -/
theorem claim_C6_asl_empty_raises (solver : Finset (Finset Vec) → Finset St → Bool) :
    asl solver (∅ : Finset (Finset Vec)) = .error .typeError := by
  unfold asl pspaceD
  rw [if_pos rfl]

/-- Counterexample to C6 as stated: even with an adapter that would report
"not optimal" (i.e. `asl` would be `True`), the call on the empty set errors
instead of returning `True`. -/
theorem claim_C6_counterexample :
    asl (fun _ _ => true) (∅ : Finset (Finset Vec)) = .error .typeError ∧
    asl (fun _ _ => true) (∅ : Finset (Finset Vec)) ≠ .ok true := by
  refine ⟨claim_C6_asl_empty_raises _, ?_⟩
  rw [claim_C6_asl_empty_raises _]
  intro h
  exact Except.noConfusion h

theorem aplFeasible_scale_clip {D : Finset DRay} {ps A : Finset St} {s : AplSol}
    (h : AplFeasible D ps A s) {c : ℚ} (hc : 0 ≤ c) :
    AplFeasible D ps A ⟨fun g => c * s.lam g, fun ω => min (c * s.tau ω) 1⟩ := by
  obtain ⟨hlam, htau, hpt, htier⟩ := h
  refine ⟨fun g hg => mul_nonneg hc (hlam g hg), fun ω hω => ?_, fun x hx => ?_, ?_⟩
  · exact ⟨le_min (mul_nonneg hc (htau ω hω).1) zero_le_one, min_le_right _ _⟩
  · have hsum : (∑ g ∈ D, c * s.lam g * g.r.val x) = c * ∑ g ∈ D, s.lam g * g.r.val x := by
      rw [Finset.mul_sum]
      exact Finset.sum_congr rfl (fun g _ => by ring)
    simp only
    rw [hsum]
    by_cases hxA : x ∈ A
    · rw [if_pos hxA]
      have h1 : min (c * s.tau x) 1 ≤ c * s.tau x := min_le_left _ _
      have h2 : c * (∑ g ∈ D, s.lam g * g.r.val x) + c * s.tau x ≤ 0 := by
        have := hpt x hx
        rw [if_pos hxA] at this
        calc c * (∑ g ∈ D, s.lam g * g.r.val x) + c * s.tau x
            = c * ((∑ g ∈ D, s.lam g * g.r.val x) + s.tau x) := by ring
          _ ≤ c * 0 := mul_le_mul_of_nonneg_left this hc
          _ = 0 := mul_zero c
      linarith
    · rw [if_neg hxA]
      have := hpt x hx
      rw [if_neg hxA, add_zero] at this
      have := mul_le_mul_of_nonneg_left this hc
      rw [mul_zero] at this
      linarith
  · intro x hx g hg
    have := htier x hx g hg
    have h2 := mul_le_mul_of_nonneg_left this hc
    rw [mul_zero] at h2
    calc c * s.lam g * g.dir.val x = c * (s.lam g * g.dir.val x) := by ring
      _ ≤ 0 := h2

/-- At any optimal solution of an `apl`-round LP, every `τ`-coordinate of the
active set is exactly `0` or exactly `1`: otherwise scaling the solution by
the reciprocal of the smallest positive `τ` (clipped at `1`) would strictly
increase the objective. -/
theorem aplOptimal_tau_zero_or_one {D : Finset DRay} {ps A : Finset St} {s : AplSol}
    (hopt : AplOptimal D ps A s) : ∀ ω ∈ A, s.tau ω = 0 ∨ s.tau ω = 1 := by
  obtain ⟨hfeas, hbest⟩ := hopt
  by_contra hcon
  push_neg at hcon
  obtain ⟨ω0, hω0A, hω0ne0, hω0ne1⟩ := hcon
  have hbounds := hfeas.2.1
  have h0lt : 0 < s.tau ω0 := lt_of_le_of_ne (hbounds ω0 hω0A).1 (Ne.symm hω0ne0)
  have hlt1 : s.tau ω0 < 1 := lt_of_le_of_ne (hbounds ω0 hω0A).2 hω0ne1
  set T := A.filter (fun ω => 0 < s.tau ω) with hT
  have hω0T : ω0 ∈ T := Finset.mem_filter.mpr ⟨hω0A, h0lt⟩
  have hTne : T.Nonempty := ⟨ω0, hω0T⟩
  set m := (T.image s.tau).min' (hTne.image _) with hm
  have hmmem : m ∈ T.image s.tau := (T.image s.tau).min'_mem _
  have hmpos : 0 < m := by
    rw [Finset.mem_image] at hmmem
    obtain ⟨ω, hω, hv⟩ := hmmem
    rw [← hv]
    exact (Finset.mem_filter.mp hω).2
  have hmle : ∀ ω ∈ T, m ≤ s.tau ω := by
    intro ω hω
    exact Finset.min'_le _ _ (Finset.mem_image_of_mem _ hω)
  set c := 1 / m with hc
  have hcpos : 0 < c := by positivity
  have hfeas' := aplFeasible_scale_clip hfeas hcpos.le
  have hge : ∀ ω ∈ A, s.tau ω ≤ min (c * s.tau ω) 1 := by
    intro ω hωA
    rcases lt_or_le 0 (s.tau ω) with hpos | hle
    · have hωT : ω ∈ T := Finset.mem_filter.mpr ⟨hωA, hpos⟩
      have : 1 ≤ c * s.tau ω := by
        rw [hc, one_div]
        rw [show (1 : ℚ) = m⁻¹ * m from (inv_mul_cancel₀ hmpos.ne').symm]
        exact mul_le_mul_of_nonneg_left (hmle ω hωT) (by positivity)
      exact le_min (le_trans (hbounds ω hωA).2 this) (hbounds ω hωA).2
    · have h0 : s.tau ω = 0 := le_antisymm hle (hbounds ω hωA).1
      rw [h0]
      exact le_min (by rw [mul_zero]) zero_le_one
  have hstrict : s.tau ω0 < min (c * s.tau ω0) 1 := by
    have : 1 ≤ c * s.tau ω0 := by
      rw [hc, one_div]
      rw [show (1 : ℚ) = m⁻¹ * m from (inv_mul_cancel₀ hmpos.ne').symm]
      exact mul_le_mul_of_nonneg_left (hmle ω0 hω0T) (by positivity)
    rw [min_eq_right this]
    exact hlt1
  have hobj : aplObj A s < aplObj A ⟨fun g => c * s.lam g, fun ω => min (c * s.tau ω) 1⟩ := by
    unfold aplObj
    exact Finset.sum_lt_sum hge ⟨ω0, hω0A, hstrict⟩
  exact absurd (hbest _ hfeas') (not_le.mpr hobj)

theorem aplLoop_succ_some (solver : Finset St → Option AplSol) (D : Finset DRay)
    (ps : Finset St) (n : ℕ) (A : Finset St) (s : AplSol) (hA : A ≠ ∅)
    (hs : solver A = some s) :
    aplLoop solver D ps (n + 1) A =
      (if ∀ ω ∈ A, s.tau ω = 0 then some (.ok (some true))
       else if ∀ ω ∈ A, s.tau ω ≠ 0 then some (.ok (some false))
       else if A.filter (fun ω => s.tau ω = 1) = ∅ then some (.error .attributeError)
       else aplLoop solver D ps n (A.filter (fun ω => s.tau ω = 1))) := by
  conv_lhs => unfold aplLoop
  rw [if_neg hA, hs]

theorem aplLoop_reaches_bool {D : Finset DRay} {ps : Finset St}
    (solver : Finset St → Option AplSol)
    (hsolver : ∀ A, A ⊆ ps → A.Nonempty →
      ∃ s, solver A = some s ∧ AplOptimal D ps A s) :
    ∀ fuel A, A ⊆ ps → A.Nonempty → A.card < fuel →
      ∃ b, aplLoop solver D ps fuel A = some (.ok (some b)) := by
  intro fuel
  induction fuel with
  | zero => intro A _ _ h; exact absurd h (by omega)
  | succ n ih =>
    intro A hAps hAne hcard
    obtain ⟨s, hs, hopt⟩ := hsolver A hAps hAne
    rw [aplLoop_succ_some solver D ps n A s (Finset.nonempty_iff_ne_empty.mp hAne) hs]
    by_cases hz : ∀ ω ∈ A, s.tau ω = 0
    · exact ⟨true, by rw [if_pos hz]⟩
    · rw [if_neg hz]
      by_cases hnz : ∀ ω ∈ A, s.tau ω ≠ 0
      · exact ⟨false, by rw [if_pos hnz]⟩
      · rw [if_neg hnz]
        push_neg at hz hnz
        obtain ⟨ω1, hω1A, hω1⟩ := hz
        obtain ⟨ω0, hω0A, hω0⟩ := hnz
        have hdich := aplOptimal_tau_zero_or_one hopt
        have hω1one : s.tau ω1 = 1 := (hdich ω1 hω1A).resolve_left hω1
        set A' := A.filter (fun ω => s.tau ω = 1) with hA'
        have hω1A' : ω1 ∈ A' := Finset.mem_filter.mpr ⟨hω1A, hω1one⟩
        have hA'ne : A'.Nonempty := ⟨ω1, hω1A'⟩
        rw [if_neg (Finset.nonempty_iff_ne_empty.mp hA'ne)]
        have hssub : A' ⊂ A := by
          refine Finset.ssubset_iff_of_subset (Finset.filter_subset _ _) |>.mpr ?_
          refine ⟨ω0, hω0A, ?_⟩
          intro hmem
          have h1 := (Finset.mem_filter.mp hmem).2
          rw [hω0] at h1
          norm_num at h1
        have hcard' : A'.card < A.card := Finset.card_lt_card hssub
        exact ih A' (le_trans (Finset.filter_subset _ _) hAps) hA'ne (by omega)

/-- C2: on a desirability set whose elements are genuine (di)rays (nonempty
domains) and for which every round's LP returns an optimal solution,
`apl` terminates within `|pspace|` iterations — the active set strictly
decreases — and returns a boolean; at every optimal round solution each
`τ`-coordinate is exactly `0` or `1` (exact rational LPs), so the `all(tau)`
branch (return `False`) fires exactly when all coordinates reach `τ = 1`, the
`not any(tau)` branch (return `True`) when none do, and the new active set
`{ω : τ_ω = 1}` is never empty — the claim's "A becomes empty" case cannot
arise (were it to arise, the loop would fall through and return Python's
`None`, not `True`). -/
theorem claim_C2_apl_terminates_boolean (D : Finset DRay)
    (solver : Finset St → Option AplSol) (hD : D ≠ ∅)
    (hray : ∀ g ∈ D, g.r.dom.Nonempty)
    (hsolver : ∀ A, A ⊆ pspaceR D → A.Nonempty →
      ∃ s, solver A = some s ∧ AplOptimal D (pspaceR D) A s) :
    (∃ b : Bool, apl solver D = some (.ok (some b))) ∧
    (∀ A, A ⊆ pspaceR D → ∀ s, AplOptimal D (pspaceR D) A s →
      ∀ ω ∈ A, s.tau ω = 0 ∨ s.tau ω = 1) ∧
    (∀ s, solver (pspaceR D) = some s →
      ((∀ ω ∈ pspaceR D, s.tau ω = 0) → apl solver D = some (.ok (some true))) ∧
      ((∀ ω ∈ pspaceR D, s.tau ω = 1) → apl solver D = some (.ok (some false)))) := by
  have hpsne : (pspaceR D).Nonempty := by
    obtain ⟨g, hg⟩ := Finset.nonempty_iff_ne_empty.mpr hD
    obtain ⟨x, hx⟩ := hray g hg
    exact ⟨x, Finset.mem_sup.mpr ⟨g, hg, hx⟩⟩
  refine ⟨?_, ?_, ?_⟩
  · unfold apl
    rw [if_neg hD]
    exact aplLoop_reaches_bool solver hsolver ((pspaceR D).card + 1) (pspaceR D)
      (Finset.Subset.refl _) hpsne (by omega)
  · intro A _ s hopt
    exact aplOptimal_tau_zero_or_one hopt
  · intro s hs
    constructor
    · intro hall
      unfold apl
      rw [if_neg hD]
      rw [aplLoop_succ_some solver D (pspaceR D) (pspaceR D).card (pspaceR D) s
        (Finset.nonempty_iff_ne_empty.mp hpsne) hs, if_pos hall]
    · intro hall
      unfold apl
      rw [if_neg hD]
      rw [aplLoop_succ_some solver D (pspaceR D) (pspaceR D).card (pspaceR D) s
        (Finset.nonempty_iff_ne_empty.mp hpsne) hs]
      rw [if_neg, if_pos]
      · intro ω hω
        rw [hall ω hω]
        norm_num
      · intro h
        obtain ⟨x, hx⟩ := hpsne
        have := h x hx
        rw [hall x hx] at this
        norm_num at this

theorem pspaceR_dRay0 : pspaceR {dRay0} = {"a"} := by
  unfold pspaceR
  rw [Finset.sup_singleton]
  rfl

theorem solver0_optimal : ∀ A, A ⊆ pspaceR {dRay0} → A.Nonempty →
    ∃ s, solver0 A = some s ∧ AplOptimal {dRay0} (pspaceR {dRay0}) A s := by
  intro A hA hAne
  rw [pspaceR_dRay0] at hA
  have hA1 : A = {"a"} := by
    rcases Finset.subset_singleton_iff.mp hA with rfl | h
    · exact absurd hAne (by simp)
    · exact h
  subst hA1
  refine ⟨⟨fun _ => 1, fun _ => 1⟩, rfl, ⟨⟨?_, ?_, ?_, ?_⟩, ?_⟩⟩
  · intro g _
    norm_num
  · intro ω _
    norm_num
  · intro x hx
    rw [pspaceR_dRay0] at hx
    rw [Finset.mem_singleton] at hx
    subst hx
    rw [Finset.sum_singleton, if_pos (Finset.mem_singleton_self _)]
    show (1 : ℚ) * dRay0.r.val "a" + 1 ≤ 0
    unfold dRay0
    rw [Vec.ofFun_val, if_pos (by decide : ("a" : St) ∈ ({"a"} : Finset St))]
    norm_num
  · intro x hx
    rw [pspaceR_dRay0, Finset.sdiff_self] at hx
    exact absurd hx (Finset.not_mem_empty x)
  · intro s' hs'
    unfold aplObj
    rw [Finset.sum_singleton, Finset.sum_singleton]
    exact (hs'.2.1 "a" (Finset.mem_singleton_self _)).2

/-- Witness for C2: on the desirability set `{DiRay({'a': -1})}` with an
adapter returning the optimal round solution `λ = 1, τ = 1`, the hypotheses
of the claim hold, `apl` terminates with a boolean, and — since every
coordinate reaches `τ = 1` — that boolean is `False` (partial loss). -/
theorem claim_C2_witness :
    ({dRay0} : Finset DRay) ≠ ∅ ∧
    (∀ g ∈ ({dRay0} : Finset DRay), g.r.dom.Nonempty) ∧
    (∃ b : Bool, apl solver0 {dRay0} = some (.ok (some b))) ∧
    apl solver0 {dRay0} = some (.ok (some false)) := by
  have hD : ({dRay0} : Finset DRay) ≠ ∅ := by simp
  have hray : ∀ g ∈ ({dRay0} : Finset DRay), g.r.dom.Nonempty := by
    intro g hg
    rw [Finset.mem_singleton.mp hg]
    exact ⟨"a", by decide⟩
  have h := claim_C2_apl_terminates_boolean {dRay0} solver0 hD hray solver0_optimal
  refine ⟨hD, hray, h.1, ?_⟩
  have hone := (h.2.2 ⟨fun _ => 1, fun _ => 1⟩ rfl).2
  exact hone (fun ω _ => rfl)

theorem dotOn_comm (ps : Finset St) (p f : St → ℚ) : dotOn ps p f = dotOn ps f p :=
  Finset.sum_congr rfl (fun _ _ => mul_comm _ _)

theorem dotOn_smul_add_right (ps : Finset St) (p a g : St → ℚ) (μ : ℚ) :
    dotOn ps p (μ • a + g) = μ * dotOn ps p a + dotOn ps p g := by
  unfold dotOn
  rw [Finset.mul_sum, ← Finset.sum_add_distrib]
  refine Finset.sum_congr rfl (fun x _ => ?_)
  simp only [Pi.add_apply, Pi.smul_apply, smul_eq_mul]
  ring

theorem dotOn_zero_right (ps : Finset St) (p : St → ℚ) : dotOn ps p 0 = 0 := by
  unfold dotOn
  simp

theorem zero_mem_coneL : ∀ L : List (St → ℚ), (0 : St → ℚ) ∈ coneL L := by
  intro L
  induction L with
  | nil => rfl
  | cons a L ih => exact ⟨0, le_refl 0, 0, ih, by simp⟩

theorem coneL_cons_of_mem {L : List (St → ℚ)} {f : St → ℚ} (a : St → ℚ)
    (h : f ∈ coneL L) : f ∈ coneL (a :: L) :=
  ⟨0, le_refl 0, f, h, by simp⟩

theorem smul_mem_coneL {L : List (St → ℚ)} {f : St → ℚ} {c : ℚ} (hc : 0 ≤ c)
    (h : f ∈ coneL L) : c • f ∈ coneL L := by
  induction L generalizing f with
  | nil =>
    rw [Set.mem_singleton_iff.mp h]
    simp only [smul_zero]
    exact zero_mem_coneL []
  | cons a L ih =>
    obtain ⟨μ, hμ, g, hg, rfl⟩ := h
    exact ⟨c * μ, mul_nonneg hc hμ, c • g, ih hg, by
      funext x
      simp only [Pi.add_apply, Pi.smul_apply, smul_eq_mul]
      ring⟩

theorem add_mem_coneL {L : List (St → ℚ)} {f g : St → ℚ}
    (hf : f ∈ coneL L) (hg : g ∈ coneL L) : f + g ∈ coneL L := by
  induction L generalizing f g with
  | nil =>
    rw [Set.mem_singleton_iff.mp hf, Set.mem_singleton_iff.mp hg]
    simp only [add_zero]
    exact zero_mem_coneL []
  | cons a L ih =>
    obtain ⟨μ, hμ, u, hu, rfl⟩ := hf
    obtain ⟨ν, hν, w, hw, rfl⟩ := hg
    exact ⟨μ + ν, add_nonneg hμ hν, u + w, ih hu hw, by
      funext x
      simp only [Pi.add_apply, Pi.smul_apply, smul_eq_mul]
      ring⟩

theorem mem_coneL_of_mem {L : List (St → ℚ)} {v : St → ℚ} (h : v ∈ L) : v ∈ coneL L := by
  induction L with
  | nil => exact absurd h (List.not_mem_nil v)
  | cons a L ih =>
    rcases List.mem_cons.mp h with rfl | h
    · exact ⟨1, zero_le_one, 0, zero_mem_coneL L, by simp⟩
    · exact coneL_cons_of_mem a (ih h)

theorem coneL_subset {L₁ L₂ : List (St → ℚ)} (h : ∀ v ∈ L₁, v ∈ coneL L₂) :
    coneL L₁ ⊆ coneL L₂ := by
  induction L₁ with
  | nil =>
    intro f hf
    rw [Set.mem_singleton_iff.mp hf]
    exact zero_mem_coneL L₂
  | cons a L ih =>
    intro f hf
    obtain ⟨μ, hμ, g, hg, rfl⟩ := hf
    exact add_mem_coneL (smul_mem_coneL hμ (h a (List.mem_cons_self a L)))
      (ih (fun v hv => h v (List.mem_cons_of_mem a hv)) hg)

theorem suppIn_coneL {ps : Finset St} {L : List (St → ℚ)} (hL : ∀ v ∈ L, suppIn ps v) :
    ∀ f ∈ coneL L, suppIn ps f := by
  induction L with
  | nil =>
    intro f hf
    rw [Set.mem_singleton_iff.mp hf]
    intro y _
    rfl
  | cons a L ih =>
    rintro f ⟨μ, _, g, hg, rfl⟩ x hx
    simp only [Pi.add_apply, Pi.smul_apply, smul_eq_mul]
    rw [hL a (List.mem_cons_self a L) x hx,
      ih (fun v hv => hL v (List.mem_cons_of_mem a hv)) g hg x hx]
    ring

theorem dotOn_nonneg_right_of_coneL {ps : Finset St} {L : List (St → ℚ)} {y : St → ℚ}
    (hy : ∀ v ∈ L, 0 ≤ dotOn ps y v) : ∀ g ∈ coneL L, 0 ≤ dotOn ps y g := by
  induction L with
  | nil =>
    intro g hg
    rw [Set.mem_singleton_iff.mp hg, dotOn_zero_right]
  | cons a L ih =>
    rintro g ⟨μ, hμ, u, hu, rfl⟩
    rw [dotOn_smul_add_right]
    have h1 := mul_nonneg hμ (hy a (List.mem_cons_self a L))
    have h2 := ih (fun v hv => hy v (List.mem_cons_of_mem a hv)) u hu
    linarith

theorem coneL_map_linear {T : (St → ℚ) → (St → ℚ)}
    (hT : ∀ (μ : ℚ) (a g : St → ℚ), T (μ • a + g) = μ • T a + T g) (hT0 : T 0 = 0) :
    ∀ L : List (St → ℚ), coneL (L.map T) = T '' coneL L := by
  intro L
  induction L with
  | nil =>
    apply Set.eq_of_subset_of_subset
    · intro f hf
      rw [Set.mem_singleton_iff.mp hf]
      exact ⟨0, rfl, hT0⟩
    · rintro f ⟨g, hg, rfl⟩
      rw [Set.mem_singleton_iff.mp hg, hT0]
      rfl
  | cons a L ih =>
    apply Set.eq_of_subset_of_subset
    · rintro f ⟨μ, hμ, g, hg, rfl⟩
      have hg' : g ∈ coneL (L.map T) := hg
      rw [ih] at hg'
      obtain ⟨u, hu, rfl⟩ := hg'
      exact ⟨μ • a + u, ⟨μ, hμ, u, hu, rfl⟩, hT μ a u⟩
    · rintro f ⟨g, ⟨μ, hμ, u, hu, rfl⟩, rfl⟩
      rw [hT μ a u]
      exact ⟨μ, hμ, T u, by rw [ih]; exact ⟨u, hu, rfl⟩, rfl⟩

/-- Farkas' lemma over the rationals, for the pairing `dotOn ps`: a target
supported in `ps` that is not a conic combination of the (supported)
generators is strictly separated from them by a supported functional.  Proof
by induction on the number of generators, projecting along the separating
functional of the tail. -/
theorem farkasL (ps : Finset St) :
    ∀ (n : ℕ) (L : List (St → ℚ)), L.length = n →
    (∀ v ∈ L, suppIn ps v) → ∀ b : St → ℚ, suppIn ps b → b ∉ coneL L →
    ∃ y : St → ℚ, suppIn ps y ∧ (∀ v ∈ L, 0 ≤ dotOn ps y v) ∧ dotOn ps y b < 0 := by
  intro n
  induction n with
  | zero =>
    intro L hlen _ b hb hbnot
    obtain rfl : L = [] := List.length_eq_zero.mp hlen
    have hbne : b ≠ 0 := fun h => hbnot (by rw [h]; exact rfl)
    obtain ⟨x0, hx0⟩ : ∃ x, b x ≠ 0 := Function.ne_iff.mp hbne
    have hx0ps : x0 ∈ ps := by
      by_contra hmem
      exact hx0 (hb x0 hmem)
    refine ⟨fun t => -(b t), fun x hx => by show -(b x) = 0; rw [hb x hx]; ring, fun v hv => absurd hv
      (List.not_mem_nil v), ?_⟩
    unfold dotOn
    have hsum : ∑ x ∈ ps, -(b x) * b x = -(∑ x ∈ ps, (b x)^2) := by
      rw [← Finset.sum_neg_distrib]
      exact Finset.sum_congr rfl (fun x _ => by ring)
    rw [hsum, neg_lt, neg_zero]
    refine Finset.sum_pos' (fun x _ => sq_nonneg (b x)) ⟨x0, hx0ps, ?_⟩
    positivity
  | succ n ih =>
    intro L hlen hLsupp b hb hbnot
    obtain ⟨a, L', rfl⟩ : ∃ a L', L = a :: L' := by
      cases L with
      | nil => exact absurd hlen (by simp)
      | cons a L' => exact ⟨a, L', rfl⟩
    have hasupp : suppIn ps a := hLsupp a (List.mem_cons_self a L')
    have hL'supp : ∀ v ∈ L', suppIn ps v := fun v hv => hLsupp v (List.mem_cons_of_mem a hv)
    have hbnot' : b ∉ coneL L' := fun h => hbnot (coneL_cons_of_mem a h)
    obtain ⟨y0, hy0supp, hy0v, hy0b⟩ :=
      ih L' (by simpa using hlen) hL'supp b hb hbnot'
    by_cases hay : 0 ≤ dotOn ps y0 a
    · refine ⟨y0, hy0supp, fun v hv => ?_, hy0b⟩
      rcases List.mem_cons.mp hv with rfl | hv
      · exact hay
      · exact hy0v v hv
    · push_neg at hay
      have hd : dotOn ps y0 a ≠ 0 := ne_of_lt hay
      set T : (St → ℚ) → (St → ℚ) :=
        fun v => (-(dotOn ps y0 v / dotOn ps y0 a)) • a + v with hTdef
      have hT : ∀ (μ : ℚ) (u g : St → ℚ), T (μ • u + g) = μ • T u + T g := by
        intro μ u g
        rw [hTdef]
        funext x
        simp only [Pi.add_apply, Pi.smul_apply, smul_eq_mul, Pi.neg_apply]
        rw [dotOn_smul_add_right]
        ring
      have hT0 : T 0 = 0 := by
        rw [hTdef]
        funext x
        simp only [Pi.add_apply, Pi.smul_apply, smul_eq_mul, Pi.zero_apply]
        rw [dotOn_zero_right]
        ring
      have hTsupp : ∀ v, suppIn ps v → suppIn ps (T v) := by
        intro v hv x hx
        rw [hTdef]
        simp only [Pi.add_apply, Pi.smul_apply, smul_eq_mul]
        rw [hasupp x hx, hv x hx]
        ring
      have hTbnot : T b ∉ coneL (L'.map T) := by
        intro hmem
        rw [coneL_map_linear hT hT0 L'] at hmem
        obtain ⟨g, hg, hTg⟩ := hmem
        have hgb : 0 ≤ dotOn ps y0 g := dotOn_nonneg_right_of_coneL hy0v g hg
        have hκ : 0 < (dotOn ps y0 b - dotOn ps y0 g) / dotOn ps y0 a := by
          apply div_pos_of_neg_of_neg _ hay
          linarith
        refine hbnot ⟨(dotOn ps y0 b - dotOn ps y0 g) / dotOn ps y0 a, hκ.le, g, hg, ?_⟩
        have hpt := congrFun hTg
        funext x
        have h1 := hpt x
        rw [hTdef] at h1
        simp only [Pi.add_apply, Pi.smul_apply, smul_eq_mul] at h1 ⊢
        have hexp : -(dotOn ps y0 g / dotOn ps y0 a) * a x + g x =
            -(dotOn ps y0 b / dotOn ps y0 a) * a x + b x := h1
        field_simp at hexp ⊢
        linarith [hexp]
      obtain ⟨y1, hy1supp, hy1v, hy1b⟩ := ih (L'.map T) (by simpa using hlen)
        (fun v hv => by
          obtain ⟨u, hu, rfl⟩ := List.mem_map.mp hv
          exact hTsupp u (hL'supp u hu))
        (T b) (hTsupp b hb) hTbnot
      set y : St → ℚ := (-(dotOn ps y1 a / dotOn ps y0 a)) • y0 + y1 with hydef
      have hkey : ∀ v, dotOn ps y v = dotOn ps y1 (T v) := by
        intro v
        rw [hydef, hTdef]
        rw [dotOn_comm ps _ v, dotOn_smul_add_right, dotOn_smul_add_right]
        rw [dotOn_comm ps v y0, dotOn_comm ps v y1, dotOn_comm ps y1 a]
        ring
      have hTa : T a = 0 := by
        rw [hTdef]
        funext x
        simp only [Pi.add_apply, Pi.smul_apply, smul_eq_mul, Pi.zero_apply]
        rw [div_self hd]
        ring
      refine ⟨y, ?_, fun v hv => ?_, ?_⟩
      · intro x hx
        rw [hydef]
        simp only [Pi.add_apply, Pi.smul_apply, smul_eq_mul]
        rw [hy0supp x hx, hy1supp x hx]
        ring
      · rcases List.mem_cons.mp hv with rfl | hv
        · rw [hkey v, hTa, dotOn_zero_right]
        · rw [hkey v]
          exact hy1v (T v) (List.mem_map_of_mem T hv)
      · rw [hkey b]
        exact hy1b

/-- The bipolar consequence of Farkas' lemma used by the duality round trip:
a supported target on which every supported functional that is nonnegative on
the generators is nonnegative lies in the conic hull of the generators. -/
theorem mem_coneL_of_dual_nonneg {ps : Finset St} {L : List (St → ℚ)}
    (hL : ∀ v ∈ L, suppIn ps v) {b : St → ℚ} (hb : suppIn ps b)
    (h : ∀ y : St → ℚ, suppIn ps y → (∀ v ∈ L, 0 ≤ dotOn ps y v) → 0 ≤ dotOn ps y b) :
    b ∈ coneL L := by
  by_contra hnot
  obtain ⟨y, hysupp, hyv, hyb⟩ := farkasL ps L.length L rfl hL b hb hnot
  exact absurd (h y hysupp hyv) (not_le.mpr hyb)

theorem listSum_mem_coneL (l : List Vec) (c : Vec → ℚ) (hc : ∀ r ∈ l, 0 ≤ c r) :
    (l.map (fun r => c r • r.val)).sum ∈ coneL (l.map Vec.val) := by
  induction l with
  | nil => exact zero_mem_coneL []
  | cons a l ih =>
    exact ⟨c a, hc a (List.mem_cons_self a l),
      (l.map (fun r => c r • r.val)).sum,
      ih (fun r hr => hc r (List.mem_cons_of_mem a hr)), rfl⟩

theorem coneL_to_coeffs (l : List Vec) (hnd : l.Nodup) :
    ∀ f ∈ coneL (l.map Vec.val),
    ∃ c : Vec → ℚ, (∀ r ∈ l, 0 ≤ c r) ∧ f = (l.map (fun r => c r • r.val)).sum := by
  induction l with
  | nil =>
    intro f hf
    exact ⟨fun _ => 0, fun r hr => absurd hr (List.not_mem_nil r),
      Set.mem_singleton_iff.mp hf⟩
  | cons a l ih =>
    intro f hf
    obtain ⟨μ, hμ, g, hg, rfl⟩ := hf
    obtain ⟨c', hc', rfl⟩ := ih (List.Nodup.of_cons hnd) g hg
    have hanl : a ∉ l := (List.nodup_cons.mp hnd).1
    refine ⟨fun r => if r = a then μ else c' r, fun r hr => ?_, ?_⟩
    · rcases List.mem_cons.mp hr with rfl | hr
      · show 0 ≤ if r = r then μ else c' r
        rw [if_pos rfl]
        exact hμ
      · show 0 ≤ if r = a then μ else c' r
        rw [if_neg (fun h : r = a => hanl (h ▸ hr))]
        exact hc' r hr
    · show μ • a.val + (l.map (fun r => c' r • r.val)).sum =
        ((if a = a then μ else c' a) • a.val
          :: l.map (fun r => (if r = a then μ else c' r) • r.val)).sum
      rw [List.sum_cons, if_pos rfl]
      have hmap : l.map (fun r => (if r = a then μ else c' r) • r.val) =
          l.map (fun r => c' r • r.val) :=
        List.map_congr_left (fun r hr => by rw [if_neg (fun h : r = a => hanl (h ▸ hr))])
      rw [hmap]

theorem coneV_eq_coneL (G : Finset Vec) : coneV G = coneL (G.toList.map Vec.val) := by
  apply Set.eq_of_subset_of_subset
  · rintro f ⟨c, hc, rfl⟩
    rw [show (∑ r ∈ G, c r • r.val) = (G.toList.map (fun r => c r • r.val)).sum from
      (Finset.sum_to_list G _).symm]
    exact listSum_mem_coneL G.toList c (fun r hr => hc r (Finset.mem_toList.mp hr))
  · intro f hf
    obtain ⟨c, hc, rfl⟩ := coneL_to_coeffs G.toList (Finset.nodup_toList G) f hf
    exact ⟨c, fun r hr => hc r (Finset.mem_toList.mpr hr), Finset.sum_to_list G _⟩

/-- Two lists of generators that are positive multiples of each other span
the same cone. -/
theorem coneL_eq_of_pos_scales {L₁ L₂ : List (St → ℚ)}
    (h12 : ∀ v ∈ L₁, ∃ c : ℚ, 0 < c ∧ ∃ w ∈ L₂, v = c • w)
    (h21 : ∀ w ∈ L₂, ∃ c : ℚ, 0 < c ∧ ∃ v ∈ L₁, w = c • v) :
    coneL L₁ = coneL L₂ := by
  apply Set.eq_of_subset_of_subset
  · apply coneL_subset
    intro v hv
    obtain ⟨c, hc, w, hw, rfl⟩ := h12 v hv
    exact smul_mem_coneL hc.le (mem_coneL_of_mem hw)
  · apply coneL_subset
    intro w hw
    obtain ⟨c, hc, v, hv, rfl⟩ := h21 w hw
    exact smul_mem_coneL hc.le (mem_coneL_of_mem hv)

theorem mapE_ok {α β : Type} (F : α → Except PyErr β) (G : α → β) :
    ∀ l : List α, (∀ a ∈ l, F a = .ok (G a)) → mapE F l = .ok (l.map G) := by
  intro l
  induction l with
  | nil => intro _; rfl
  | cons a l ih =>
    intro h
    unfold mapE
    rw [h a (List.mem_cons_self a l), ih (fun x hx => h x (List.mem_cons_of_mem a hx))]
    rfl

theorem pmfMk_ok (f : Vec) (h1 : f.mass ≠ 0) (h2 : (umfVal f).is_nonnegative) :
    pmfMk f = .ok (umfVal f) := by
  unfold pmfMk umfMk
  rw [if_neg h1]
  show (if (umfVal f).is_nonnegative then Except.ok (umfVal f) else Except.error _) = _
  rw [if_pos h2]

theorem getCredal_ok (D : Finset Vec) (ext lin : List (St → ℚ)) (hD : D ≠ ∅)
    (h : ∀ v ∈ rowsOf ext lin, (Vec.ofFun (D.sup Vec.dom) v).mass ≠ 0 ∧
      (umfVal (Vec.ofFun (D.sup Vec.dom) v)).is_nonnegative) :
    getCredal D ext lin = .ok (credalOf (D.sup Vec.dom) (rowsOf ext lin)) := by
  unfold getCredal
  rw [if_neg hD,
    mapE_ok _ (fun v => umfVal (Vec.ofFun (D.sup Vec.dom) v)) _
      (fun v hv => pmfMk_ok _ (h v hv).1 (h v hv).2)]
  rfl

theorem getDesir_ok (K : Finset Vec) (ext lin : List (St → ℚ)) (hK : K ≠ ∅)
    (h : ∀ v ∈ rowsOf ext lin, (Vec.ofFun (K.sup Vec.dom) v).norm ≠ 0) :
    getDesir K ext lin = .ok (desirOf (K.sup Vec.dom) (rowsOf ext lin)) := by
  unfold getDesir
  rw [if_neg hK,
    mapE_ok _ (fun v => rayVal (Vec.ofFun (K.sup Vec.dom) v)) _
      (fun v hv => by unfold rayMk; rw [if_neg (h v hv)])]
  rfl

theorem dotOn_smul_left (ps : Finset St) (c : ℚ) (p f : St → ℚ) :
    dotOn ps (c • p) f = c * dotOn ps p f := by
  unfold dotOn
  rw [Finset.mul_sum]
  refine Finset.sum_congr rfl (fun x _ => ?_)
  simp only [Pi.smul_apply, smul_eq_mul]
  ring

theorem suppIn_of_mem_sup {G : Finset Vec} {r : Vec} (hr : r ∈ G) :
    suppIn (G.sup Vec.dom) r.val := by
  intro x hx
  apply r.zero_off
  intro hdom
  exact hx (Finset.mem_sup.mpr ⟨r, hr, hdom⟩)

theorem ofFun_val_of_suppIn {ps : Finset St} {v : St → ℚ} (h : suppIn ps v) :
    (Vec.ofFun ps v).val = v := by
  funext x
  rw [Vec.ofFun_val]
  by_cases hx : x ∈ ps
  · rw [if_pos hx]
  · rw [if_neg hx, h x hx]

theorem ofFun_mass (ps : Finset St) (v : St → ℚ) : (Vec.ofFun ps v).mass = massOn ps v := by
  unfold Vec.mass massOn
  rw [Vec.ofFun_dom]
  exact Finset.sum_congr rfl (fun x hx => Vec.ofFun_val_mem hx v)

theorem umfVal_ofFun_val {ps : Finset St} {v : St → ℚ} (hsupp : suppIn ps v) :
    (umfVal (Vec.ofFun ps v)).val = (1 / massOn ps v) • v := by
  funext x
  rw [umfVal_val, ofFun_mass]
  simp only [Pi.smul_apply, smul_eq_mul]
  rw [congrFun (ofFun_val_of_suppIn hsupp) x]
  ring

theorem rayVal_ofFun_val {ps : Finset St} {v : St → ℚ} (hsupp : suppIn ps v) :
    (rayVal (Vec.ofFun ps v)).val = (1 / (Vec.ofFun ps v).norm) • v := by
  funext x
  unfold rayVal Vec.normalizedD
  rw [Vec.restrictSupp_val, Vec.sdiv_val]
  simp only [Pi.smul_apply, smul_eq_mul]
  rw [congrFun (ofFun_val_of_suppIn hsupp) x]
  ring

theorem mem_credalOf_iff {ps : Finset St} {rows : List (St → ℚ)} {p : Vec} :
    p ∈ credalOf ps rows ↔ ∃ v ∈ rows, p = umfVal (Vec.ofFun ps v) := by
  unfold credalOf
  rw [List.mem_toFinset, List.mem_map]
  constructor
  · rintro ⟨v, hv, rfl⟩
    exact ⟨v, hv, rfl⟩
  · rintro ⟨v, hv, rfl⟩
    exact ⟨v, hv, rfl⟩

theorem mem_desirOf_iff {ps : Finset St} {rows : List (St → ℚ)} {r : Vec} :
    r ∈ desirOf ps rows ↔ ∃ v ∈ rows, r = rayVal (Vec.ofFun ps v) := by
  unfold desirOf
  rw [List.mem_toFinset, List.mem_map]
  constructor
  · rintro ⟨v, hv, rfl⟩
    exact ⟨v, hv, rfl⟩
  · rintro ⟨v, hv, rfl⟩
    exact ⟨v, hv, rfl⟩

/-- Sum-normalizing rows of positive mass does not change their conic hull. -/
theorem coneV_credalOf {ps : Finset St} {rows : List (St → ℚ)}
    (hsupp : ∀ v ∈ rows, suppIn ps v) (hmass : ∀ v ∈ rows, 0 < massOn ps v) :
    coneV (credalOf ps rows) = coneL rows := by
  rw [coneV_eq_coneL]
  apply coneL_eq_of_pos_scales
  · intro w hw
    obtain ⟨p, hp, rfl⟩ := List.mem_map.mp hw
    obtain ⟨v, hv, rfl⟩ := mem_credalOf_iff.mp (Finset.mem_toList.mp hp)
    exact ⟨1 / massOn ps v, one_div_pos.mpr (hmass v hv), v, hv, umfVal_ofFun_val (hsupp v hv)⟩
  · intro v hv
    refine ⟨massOn ps v, hmass v hv, (umfVal (Vec.ofFun ps v)).val, ?_, ?_⟩
    · exact List.mem_map_of_mem Vec.val (Finset.mem_toList.mpr
        (mem_credalOf_iff.mpr ⟨v, hv, rfl⟩))
    · rw [umfVal_ofFun_val (hsupp v hv)]
      funext x
      simp only [Pi.smul_apply, smul_eq_mul]
      rw [show massOn ps v * (1 / massOn ps v * v x) = v x from by
        rw [← mul_assoc, mul_one_div, div_self (hmass v hv).ne', one_mul]]

/-- Max-norm-normalizing nonzero rows does not change their conic hull. -/
theorem coneV_desirOf {ps : Finset St} {rows : List (St → ℚ)}
    (hsupp : ∀ v ∈ rows, suppIn ps v)
    (hnorm : ∀ v ∈ rows, (Vec.ofFun ps v).norm ≠ 0) :
    coneV (desirOf ps rows) = coneL rows := by
  rw [coneV_eq_coneL]
  apply coneL_eq_of_pos_scales
  · intro w hw
    obtain ⟨p, hp, rfl⟩ := List.mem_map.mp hw
    obtain ⟨v, hv, rfl⟩ := mem_desirOf_iff.mp (Finset.mem_toList.mp hp)
    have hpos := (Vec.ofFun ps v).norm_pos_of_ne_zero (hnorm v hv)
    exact ⟨1 / (Vec.ofFun ps v).norm, one_div_pos.mpr hpos, v, hv, rayVal_ofFun_val (hsupp v hv)⟩
  · intro v hv
    have hpos := (Vec.ofFun ps v).norm_pos_of_ne_zero (hnorm v hv)
    refine ⟨(Vec.ofFun ps v).norm, hpos, (rayVal (Vec.ofFun ps v)).val, ?_, ?_⟩
    · exact List.mem_map_of_mem Vec.val (Finset.mem_toList.mpr
        (mem_desirOf_iff.mpr ⟨v, hv, rfl⟩))
    · rw [rayVal_ofFun_val (hsupp v hv)]
      funext x
      simp only [Pi.smul_apply, smul_eq_mul]
      rw [show (Vec.ofFun ps v).norm * (1 / (Vec.ofFun ps v).norm * v x) = v x from by
        rw [← mul_assoc, mul_one_div, div_self (hnorm v hv), one_mul]]

theorem coneV_suppIn {ps : Finset St} {G : Finset Vec}
    (h : ∀ r ∈ G, suppIn ps r.val) : ∀ f ∈ coneV G, suppIn ps f := by
  intro f hf
  rw [coneV_eq_coneL] at hf
  refine suppIn_coneL ?_ f hf
  intro v hv
  obtain ⟨r, hr, rfl⟩ := List.mem_map.mp hv
  exact h r (Finset.mem_toList.mp hr)

theorem dotOn_nonneg_coneV {ps : Finset St} {G : Finset Vec} {y : St → ℚ}
    (hy : ∀ r ∈ G, 0 ≤ dotOn ps y r.val) : ∀ g ∈ coneV G, 0 ≤ dotOn ps y g := by
  intro g hg
  rw [coneV_eq_coneL] at hg
  refine dotOn_nonneg_right_of_coneL ?_ g hg
  intro v hv
  obtain ⟨r, hr, rfl⟩ := List.mem_map.mp hv
  exact hy r (Finset.mem_toList.mp hr)

theorem dotOn_smul_right (ps : Finset St) (c : ℚ) (p f : St → ℚ) :
    dotOn ps p (c • f) = c * dotOn ps p f := by
  rw [dotOn_comm, dotOn_smul_left, dotOn_comm]

/-- C1 (amended): the duality round trip.  For a nonempty DesirabilitySet `D`
of genuine rays (closed: one generator per cone), suppose the polyhedron
adapter returns a valid V-representation `(ext1, lin1)` of the dual cone
`{p : Σ_x p[x]·r[x] ≥ 0 ∀ r ∈ D}` each of whose emitted generator rows has
positive total mass and nonnegative entries (so PMF sum-normalization keeps
its direction — without this the round trip can flip or lose directions, see
the counterexample), that the resulting credal set spans the same possibility
space, and that the adapter then returns a valid V-representation
`(ext2, lin2)` — with no identically-zero row — of the dual cone of that
credal set.  Then `D.get_credal()` succeeds, `.get_desir()` succeeds, and the
resulting DesirabilitySet has exactly the same conic hull as `D` (hence the
same lower and upper expectations). -/
theorem claim_C1_amended_duality_round_trip
    (D : Finset Vec) (ext1 lin1 ext2 lin2 : List (St → ℚ))
    (hD : D ≠ ∅) (hray : ∀ r ∈ D, r.dom.Nonempty)
    (h2 : ∀ v ∈ rowsOf ext1 lin1, suppIn (D.sup Vec.dom) v)
    (h3 : coneL (rowsOf ext1 lin1) = dualV (D.sup Vec.dom) D)
    (h4 : ∀ v ∈ rowsOf ext1 lin1, 0 < massOn (D.sup Vec.dom) v ∧ ∀ x, 0 ≤ v x)
    (hpsK : (credalOf (D.sup Vec.dom) (rowsOf ext1 lin1)).sup Vec.dom = D.sup Vec.dom)
    (h5 : ∀ v ∈ rowsOf ext2 lin2, suppIn (D.sup Vec.dom) v)
    (h6 : coneL (rowsOf ext2 lin2) =
      dualV (D.sup Vec.dom) (credalOf (D.sup Vec.dom) (rowsOf ext1 lin1)))
    (h7 : ∀ v ∈ rowsOf ext2 lin2, (Vec.ofFun (D.sup Vec.dom) v).norm ≠ 0) :
    getCredal D ext1 lin1 = .ok (credalOf (D.sup Vec.dom) (rowsOf ext1 lin1)) ∧
    getDesir (credalOf (D.sup Vec.dom) (rowsOf ext1 lin1)) ext2 lin2 =
      .ok (desirOf (D.sup Vec.dom) (rowsOf ext2 lin2)) ∧
    coneV (desirOf (D.sup Vec.dom) (rowsOf ext2 lin2)) = coneV D := by
  set ps := D.sup Vec.dom with hpsdef
  set rows₁ := rowsOf ext1 lin1
  set rows₂ := rowsOf ext2 lin2
  set K := credalOf ps rows₁ with hKdef
  have hDsupp : ∀ r ∈ D, suppIn ps r.val := fun r hr => suppIn_of_mem_sup hr
  have hpsne : ps.Nonempty := by
    obtain ⟨r, hr⟩ := Finset.nonempty_iff_ne_empty.mpr hD
    obtain ⟨x, hx⟩ := hray r hr
    exact ⟨x, Finset.mem_sup.mpr ⟨r, hr, hx⟩⟩
  have hKne : K ≠ ∅ := by
    intro h
    rw [h] at hpsK
    rw [Finset.sup_empty] at hpsK
    obtain ⟨x, hx⟩ := hpsne
    rw [← hpsK] at hx
    exact Finset.not_mem_empty x hx
  have hcred : getCredal D ext1 lin1 = .ok K := by
    apply getCredal_ok D ext1 lin1 hD
    intro v hv
    constructor
    · rw [ofFun_mass]
      exact (h4 v hv).1.ne'
    · intro x _
      rw [umfVal_val, ofFun_mass]
      apply div_nonneg _ (h4 v hv).1.le
      rw [Vec.ofFun_val]
      by_cases hx : x ∈ ps
      · rw [if_pos hx]
        exact (h4 v hv).2 x
      · rw [if_neg hx]
  have hdes : getDesir K ext2 lin2 = .ok (desirOf ps rows₂) := by
    have h := getDesir_ok K ext2 lin2 hKne (by
      intro v hv
      rw [hpsK]
      exact h7 v hv)
    rw [hpsK] at h
    exact h
  refine ⟨hcred, hdes, ?_⟩
  rw [coneV_desirOf h5 h7, h6]
  have hdual_iff : ∀ g : St → ℚ,
      (∀ p ∈ K, 0 ≤ dotOn ps g p.val) ↔ (∀ v ∈ rows₁, 0 ≤ dotOn ps g v) := by
    intro g
    constructor
    · intro hp v hv
      have hpK : umfVal (Vec.ofFun ps v) ∈ K := mem_credalOf_iff.mpr ⟨v, hv, rfl⟩
      have := hp _ hpK
      rw [umfVal_ofFun_val (h2 v hv), dotOn_smul_right] at this
      have hm := (h4 v hv).1
      have hexp : dotOn ps g v = massOn ps v * (1 / massOn ps v * dotOn ps g v) := by
        rw [← mul_assoc, mul_one_div, div_self hm.ne', one_mul]
      rw [hexp]
      exact mul_nonneg hm.le this
    · intro hv p hp
      obtain ⟨v, hvr, rfl⟩ := mem_credalOf_iff.mp hp
      rw [umfVal_ofFun_val (h2 v hvr), dotOn_smul_right]
      exact mul_nonneg (one_div_pos.mpr (h4 v hvr).1).le (hv v hvr)
  apply Set.eq_of_subset_of_subset
  · rintro g ⟨hgsupp, hgdual⟩
    rw [coneV_eq_coneL]
    apply mem_coneL_of_dual_nonneg
    · intro v hv
      obtain ⟨r, hr, rfl⟩ := List.mem_map.mp hv
      exact hDsupp r (Finset.mem_toList.mp hr)
    · exact hgsupp
    · intro y hysupp hyv
      have hyD : y ∈ dualV ps D := by
        refine ⟨hysupp, fun r hr => ?_⟩
        exact hyv r.val (List.mem_map_of_mem Vec.val (Finset.mem_toList.mpr hr))
      rw [← h3] at hyD
      have hrows : ∀ v ∈ rows₁, 0 ≤ dotOn ps g v := (hdual_iff g).mp hgdual
      have := dotOn_nonneg_right_of_coneL hrows y hyD
      rw [dotOn_comm]
      exact this
  · intro g hg
    refine ⟨coneV_suppIn hDsupp g hg, ?_⟩
    intro p hpK
    obtain ⟨v, hv, rfl⟩ := mem_credalOf_iff.mp hpK
    have hvdual : v ∈ dualV ps D := by
      rw [← h3]
      exact mem_coneL_of_mem hv
    have hvg : 0 ≤ dotOn ps v g := dotOn_nonneg_coneV hvdual.2 g hg
    rw [umfVal_ofFun_val (h2 v hv), dotOn_smul_right, dotOn_comm]
    exact mul_nonneg (one_div_pos.mpr (h4 v hv).1).le hvg

theorem suppIn_fn2 (qa qb : ℚ) : suppIn {"a", "b"} (fn2 qa qb) := by
  intro x hx
  simp only [Finset.mem_insert, Finset.mem_singleton] at hx
  push_neg at hx
  unfold fn2
  rw [if_neg hx.1, if_neg hx.2]

theorem dotOn_pair (p f : St → ℚ) :
    dotOn {"a", "b"} p f = p "a" * f "a" + p "b" * f "b" := by
  unfold dotOn
  rw [Finset.sum_insert (by decide), Finset.sum_singleton]

theorem D0c_sup : D0c.sup Vec.dom = {"a", "b"} := by
  unfold D0c
  rw [Finset.sup_singleton]
  rfl

theorem vAB_val (x : St) : vAB.val x = fn2 1 (-1) x :=
  congrFun (ofFun_val_of_suppIn (suppIn_fn2 1 (-1))) x

theorem rowsOf_ext1c : rowsOf ext1c lin1c =
    [fn2 1 1, fn2 1 (-1), fun x => -(fn2 1 1 x)] := rfl

theorem suppIn_rows1c : ∀ v ∈ rowsOf ext1c lin1c, suppIn {"a", "b"} v := by
  intro v hv
  rw [rowsOf_ext1c] at hv
  simp only [List.mem_cons, List.not_mem_nil, or_false] at hv
  rcases hv with rfl | rfl | rfl
  · exact suppIn_fn2 1 1
  · exact suppIn_fn2 1 (-1)
  · intro x hx
    show -(fn2 1 1 x) = 0
    rw [suppIn_fn2 1 1 x hx, neg_zero]

theorem mem_coneL_three (v1 v2 v3 : St → ℚ) (c1 c2 c3 : ℚ) (h1 : 0 ≤ c1) (h2 : 0 ≤ c2)
    (h3 : 0 ≤ c3) : (c1 • v1 + (c2 • v2 + (c3 • v3 + 0))) ∈ coneL [v1, v2, v3] :=
  ⟨c1, h1, _, ⟨c2, h2, _, ⟨c3, h3, 0, rfl, rfl⟩, rfl⟩, rfl⟩

/-- The emitted rows are a valid V-representation of the dual cone of
`D0c`. -/
theorem rows1c_valid : coneL (rowsOf ext1c lin1c) = dualV {"a", "b"} D0c := by
  apply Set.eq_of_subset_of_subset
  · intro p hp
    refine ⟨suppIn_coneL suppIn_rows1c p hp, ?_⟩
    intro r hr
    rw [Finset.mem_singleton.mp hr]
    rw [dotOn_comm]
    refine dotOn_nonneg_right_of_coneL ?_ p hp
    intro v hv
    rw [rowsOf_ext1c] at hv
    simp only [List.mem_cons, List.not_mem_nil, or_false] at hv
    rcases hv with rfl | rfl | rfl <;>
      · rw [dotOn_pair, vAB_val, vAB_val]
        simp [fn2]
  · rintro p ⟨hpsupp, hpdual⟩
    have hab : 0 ≤ p "a" - p "b" := by
      have := hpdual vAB (Finset.mem_singleton_self _)
      rw [dotOn_pair, vAB_val, vAB_val] at this
      simp [fn2] at this
      linarith
    have hoff : ∀ x : St, x ≠ "a" → x ≠ "b" → p x = 0 := by
      intro x hxa hxb
      apply hpsupp
      simp only [Finset.mem_insert, Finset.mem_singleton]
      push_neg
      exact ⟨hxa, hxb⟩
    rw [rowsOf_ext1c]
    by_cases hs : 0 ≤ p "a" + p "b"
    · have hpeq : p = ((p "a" + p "b") / 2) • fn2 1 1 +
          (((p "a" - p "b") / 2) • fn2 1 (-1) + ((0 : ℚ) • (fun x => -(fn2 1 1 x)) + 0)) := by
        funext x
        simp only [Pi.add_apply, Pi.smul_apply, smul_eq_mul, Pi.zero_apply]
        by_cases hxa : x = "a"
        · subst hxa
          simp [fn2]
          ring
        · by_cases hxb : x = "b"
          · subst hxb
            simp [fn2]
            ring
          · rw [hoff x hxa hxb]
            simp only [fn2, if_neg hxa, if_neg hxb]
            ring
      rw [hpeq]
      exact mem_coneL_three _ _ _ _ _ _ (by linarith) (by linarith) (le_refl 0)
    · have hpeq : p = ((0 : ℚ)) • fn2 1 1 +
          (((p "a" - p "b") / 2) • fn2 1 (-1) +
            ((-(p "a" + p "b") / 2) • (fun x => -(fn2 1 1 x)) + 0)) := by
        funext x
        simp only [Pi.add_apply, Pi.smul_apply, smul_eq_mul, Pi.zero_apply]
        by_cases hxa : x = "a"
        · subst hxa
          simp [fn2]
          ring
        · by_cases hxb : x = "b"
          · subst hxb
            simp [fn2]
            ring
          · rw [hoff x hxa hxb]
            simp only [fn2, if_neg hxa, if_neg hxb]
            ring
      rw [hpeq]
      exact mem_coneL_three _ _ _ _ _ _ (le_refl 0) (by linarith) (by linarith)

theorem mapE_cons_of_ok {α β : Type} (F : α → Except PyErr β) (a : α) (l : List α)
    {b : β} (h : F a = .ok b) {e : PyErr} (hl : mapE F l = .error e) :
    mapE F (a :: l) = .error e := by
  unfold mapE
  rw [h, hl]

theorem mapE_cons_of_error {α β : Type} (F : α → Except PyErr β) (a : α) (l : List α)
    {e : PyErr} (h : F a = .error e) : mapE F (a :: l) = .error e := by
  unfold mapE
  rw [h]

theorem massOn_pair (v : St → ℚ) : massOn {"a", "b"} v = v "a" + v "b" := by
  unfold massOn
  rw [Finset.sum_insert (by decide), Finset.sum_singleton]

/-- Counterexample to C1 as stated: for the closed DesirabilitySet
`D = {Ray({'a': 1, 'b': -1})}` (built only from singleton-generator cones),
the dual cone is the halfplane `{p : p[a] ≥ p[b]}`; a valid V-representation
of it — exactly the shape the cdd adapter reports, one extreme ray `(1,-1)`
plus the lineality line through `(1,1)`, with the code emitting `(1,1)`,
`(1,-1)` and `-(1,1)` — contains the zero-mass generator `(1,-1)`, whose
`PMFunc` sum-normalization raises `ValueError`.  The round trip therefore
throws instead of yielding a DesirabilitySet equivalent to `D`. -/
theorem claim_C1_counterexample :
    D0c.sup Vec.dom = {"a", "b"} ∧
    coneL (rowsOf ext1c lin1c) = dualV {"a", "b"} D0c ∧
    getCredal D0c ext1c lin1c = .error .valueError := by
  refine ⟨D0c_sup, rows1c_valid, ?_⟩
  unfold getCredal
  rw [if_neg (by unfold D0c; simp)]
  have hok : pmfMk (Vec.ofFun (D0c.sup Vec.dom) (fn2 1 1)) =
      .ok (umfVal (Vec.ofFun (D0c.sup Vec.dom) (fn2 1 1))) := by
    apply pmfMk_ok
    · rw [ofFun_mass, D0c_sup, massOn_pair]
      simp [fn2]
    · intro x _
      rw [umfVal_val, Vec.ofFun_val, ofFun_mass, D0c_sup, massOn_pair]
      unfold fn2
      split_ifs <;> norm_num
  have herr2 : pmfMk (Vec.ofFun (D0c.sup Vec.dom) (fn2 1 (-1))) = .error .valueError := by
    have hm2 : (Vec.ofFun (D0c.sup Vec.dom) (fn2 1 (-1))).mass = 0 := by
      rw [ofFun_mass, D0c_sup, massOn_pair]
      simp [fn2]
    unfold pmfMk umfMk
    rw [if_pos hm2]
  have herr : mapE (fun v => pmfMk (Vec.ofFun (D0c.sup Vec.dom) v)) (rowsOf ext1c lin1c) =
      .error .valueError := by
    rw [rowsOf_ext1c]
    exact mapE_cons_of_ok (fun v => pmfMk (Vec.ofFun (D0c.sup Vec.dom) v)) (fn2 1 1)
      [fn2 1 (-1), fun x => -(fn2 1 1 x)] hok
      (mapE_cons_of_error (fun v => pmfMk (Vec.ofFun (D0c.sup Vec.dom) v)) (fn2 1 (-1))
        [fun x => -(fn2 1 1 x)] herr2)
  rw [herr]

theorem suppIn_fn2_a : suppIn {"a"} (fn2 1 0) := by
  intro x hx
  have hxa : x ≠ "a" := by simpa using hx
  simp only [fn2, if_neg hxa, ite_self]

theorem dotOn_singleton (p f : St → ℚ) : dotOn {"a"} p f = p "a" * f "a" := by
  unfold dotOn
  rw [Finset.sum_singleton]

theorem massOn_singleton (v : St → ℚ) : massOn {"a"} v = v "a" := by
  unfold massOn
  rw [Finset.sum_singleton]

theorem DW_sup : DW.sup Vec.dom = {"a"} := by
  unfold DW
  rw [Finset.sup_singleton]
  rfl

theorem rowsOf_extW : rowsOf extW [] = [fn2 1 0] := rfl

theorem vAW_val_a : vAW.val "a" = 1 := by
  show (Vec.ofFun {"a"} (fn2 1 0)).val "a" = 1
  rw [congrFun (ofFun_val_of_suppIn suppIn_fn2_a) "a"]
  simp [fn2]

theorem vAW_mass : vAW.mass = 1 := by
  show (Vec.ofFun {"a"} (fn2 1 0)).mass = 1
  rw [ofFun_mass, massOn_singleton]
  simp [fn2]

theorem umfW_dom : (umfVal vAW).dom = {"a"} := by
  show ((vAW.sdiv vAW.mass).restrictSupp).dom = _
  rw [Vec.restrictSupp_dom]
  apply Finset.ext
  intro x
  rw [Vec.mem_supp, Vec.sdiv_dom, Vec.sdiv_val, vAW_mass]
  show x ∈ ({"a"} : Finset St) ∧ ¬vAW.val x / 1 = 0 ↔ x ∈ ({"a"} : Finset St)
  constructor
  · exact fun h => h.1
  · intro hx
    refine ⟨hx, ?_⟩
    have hxa : x = "a" := by simpa using hx
    subst hxa
    rw [vAW_val_a]
    norm_num

theorem umfW_val_a : (umfVal vAW).val "a" = 1 := by
  rw [umfVal_val, vAW_mass, vAW_val_a]
  norm_num

theorem credalW : credalOf {"a"} (rowsOf extW []) = {umfVal vAW} := by
  rw [rowsOf_extW]
  unfold credalOf
  rw [List.map_cons, List.map_nil, List.toFinset_cons, List.toFinset_nil, Finset.insert_empty]
  rfl

/-- The conic hull of the single reported row `(1)` is the dual halfline of
any singleton set whose ray has a positive value at `'a'`. -/
theorem coneW_core (c : ℚ) (hc : 0 < c) (w : Vec) (hw : w.val "a" = c) :
    coneL (rowsOf extW []) = dualV {"a"} {w} := by
  rw [rowsOf_extW]
  apply Set.eq_of_subset_of_subset
  · rintro p ⟨μ, hμ, g, hg, rfl⟩
    have hg0 : g = 0 := hg
    subst hg0
    constructor
    · intro x hx
      have hxa : x ≠ "a" := by simpa using hx
      simp only [Pi.add_apply, Pi.smul_apply, smul_eq_mul, Pi.zero_apply]
      simp only [fn2, if_neg hxa, ite_self]
      ring
    · intro r hr
      rw [Finset.mem_singleton] at hr
      subst hr
      rw [dotOn_singleton, hw]
      simp only [Pi.add_apply, Pi.smul_apply, smul_eq_mul, Pi.zero_apply]
      simp [fn2]
      positivity
  · rintro p ⟨hs, hd⟩
    have h0 := hd w (Finset.mem_singleton_self w)
    rw [dotOn_singleton, hw] at h0
    have hpa : 0 ≤ p "a" := by
      by_contra hneg
      push_neg at hneg
      nlinarith
    refine ⟨p "a", hpa, 0, rfl, ?_⟩
    funext x
    simp only [Pi.add_apply, Pi.smul_apply, smul_eq_mul, Pi.zero_apply]
    by_cases hxa : x = "a"
    · subst hxa
      simp [fn2]
    · rw [hs x (by simpa using hxa)]
      simp only [fn2, if_neg hxa, ite_self]
      ring

theorem DW_ray : ∀ r ∈ DW, r.dom.Nonempty := by
  intro r hr
  rw [Finset.mem_singleton.mp hr]
  exact ⟨"a", by decide⟩

theorem rowsW_supp : ∀ v ∈ rowsOf extW [], suppIn (DW.sup Vec.dom) v := by
  intro v hv
  rw [rowsOf_extW, List.mem_singleton] at hv
  subst hv
  rw [DW_sup]
  exact suppIn_fn2_a

theorem rowsW_valid : coneL (rowsOf extW []) = dualV (DW.sup Vec.dom) DW := by
  rw [DW_sup]
  exact coneW_core 1 one_pos vAW vAW_val_a

theorem rowsW_mass : ∀ v ∈ rowsOf extW [],
    0 < massOn (DW.sup Vec.dom) v ∧ ∀ x, 0 ≤ v x := by
  intro v hv
  rw [rowsOf_extW, List.mem_singleton] at hv
  subst hv
  rw [DW_sup]
  constructor
  · rw [massOn_singleton]
    simp [fn2]
  · intro x
    unfold fn2
    split_ifs <;> norm_num

theorem hpsKW : (credalOf (DW.sup Vec.dom) (rowsOf extW [])).sup Vec.dom = DW.sup Vec.dom := by
  rw [DW_sup, credalW, Finset.sup_singleton, umfW_dom]

theorem rowsW_valid2 : coneL (rowsOf extW []) =
    dualV (DW.sup Vec.dom) (credalOf (DW.sup Vec.dom) (rowsOf extW [])) := by
  rw [DW_sup, credalW]
  exact coneW_core 1 one_pos (umfVal vAW) umfW_val_a

theorem rowsW_norm : ∀ v ∈ rowsOf extW [], (Vec.ofFun (DW.sup Vec.dom) v).norm ≠ 0 := by
  intro v hv h0
  rw [rowsOf_extW, List.mem_singleton] at hv
  subst hv
  rw [DW_sup] at h0
  have hz := (Vec.norm_eq_zero_iff _).mp h0 "a"
  rw [congrFun (ofFun_val_of_suppIn suppIn_fn2_a) "a"] at hz
  simp [fn2] at hz

/-- Witness for the amended C1 at concrete data: `D = {Ray({'a': 1})}` with the
adapter reporting the single extreme ray `(1)` (no lineality) for both
directions; the round trip succeeds and the returned DesirabilitySet spans the
same cone as `D`. -/
theorem claim_C1_witness :
    getCredal DW extW [] = .ok (credalOf (DW.sup Vec.dom) (rowsOf extW [])) ∧
    getDesir (credalOf (DW.sup Vec.dom) (rowsOf extW [])) extW [] =
      .ok (desirOf (DW.sup Vec.dom) (rowsOf extW [])) ∧
    coneV (desirOf (DW.sup Vec.dom) (rowsOf extW [])) = coneV DW :=
  claim_C1_amended_duality_round_trip DW extW [] extW []
    (Finset.singleton_ne_empty vAW) DW_ray rowsW_supp rowsW_valid rowsW_mass hpsKW
    rowsW_supp rowsW_valid2 rowsW_norm

end Murasyp
